import Mathlib

/-!
Postfix++ interpreter (`src/main.js`).

A shallow embedding of `PostfixInterpreter`: the token classifiers `isNumeric` and
`isVariable`, `resolve`, the per-token body of the loop in `evaluate`, `evaluate` itself and
the line handler of `run`.

Modelling conventions.

* A JavaScript string is a `String`; the character-level work is done on its `List Char`.
* A JavaScript number is a `JSNumber`: `NaN`, an infinity, or a finite double given by its
  value in `ℚ`.  The value of a literal and the result of `+ - * /` are the exact rational
  result rounded to the nearest double, ties to even, with gradual underflow to `0` and
  overflow to an infinity (`roundToDouble`), which is what IEEE 754 prescribes.  The two
  zeros are one value `finite 0`: they are equal under `===`, no branch of the program
  tells them apart, and the text that `console.log` prints is not modelled.
* The array `this.stack` is a `List StackValue` whose LAST element is the top (`push` appends).
* The `Map` `this.symbolTable` is an association list in insertion order.
* `throw` is an `Outcome.thrown` carrying the error and the interpreter state at that moment.
* `console.log` / `console.error` append an `Output` event to the `console` field.
-/

namespace PostfixInterpreter

/-! ## JavaScript built-ins used by the source -/

/-- What `parseFloat` and the `Number(...)` coercion return: `NaN`, an infinity, or a finite
number. -/
inductive JSNumber where
  | nan
  | infinity (negative : Bool)
  | finite (q : ℚ)
  deriving DecidableEq

/-- The built-in `isNaN` on a number. -/
def JSNumber.isNaN : JSNumber → Bool
  | .nan => true
  | _ => false

/-- The built-in `isFinite` on a number. -/
def JSNumber.isFinite : JSNumber → Bool
  | .finite _ => true
  | _ => false

/-- ECMAScript `WhiteSpace` and `LineTerminator` code points: the set used by `trim`, by the
regular expression class `\s`, and by `StrWhiteSpaceChar`. -/
def isWhiteSpace (c : Char) : Bool :=
  let n := c.toNat
  n = 0x09 || n = 0x0A || n = 0x0B || n = 0x0C || n = 0x0D || n = 0x20 || n = 0xA0 ||
  n = 0x1680 || (0x2000 ≤ n && n ≤ 0x200A) || n = 0x2028 || n = 0x2029 || n = 0x202F ||
  n = 0x205F || n = 0x3000 || n = 0xFEFF

/-- `DecimalDigit`. -/
def isDecimalDigit (c : Char) : Bool := 48 ≤ c.toNat && c.toNat ≤ 57

/-- The longest run of decimal digits at the front, as the number it denotes so far
(`acc`), how many digits were read, and the rest of the input. -/
def scanDigits : List Char → Nat → Nat → Nat × Nat × List Char
  | [], acc, cnt => (acc, cnt, [])
  | c :: cs, acc, cnt =>
    if isDecimalDigit c then scanDigits cs (acc * 10 + (c.toNat - 48)) (cnt + 1)
    else (acc, cnt, c :: cs)

/-- The number of binary digits of `n` (`0` for `0`); `fuel` bounds the number of halvings
and `bitLength n n` is the number of digits of `n`. -/
def bitLength : Nat → Nat → Nat
  | 0, _ => 0
  | fuel + 1, n => if n = 0 then 0 else bitLength fuel (n / 2) + 1

/-- The number `n * 2 ^ k` for `k ≥ 0`, and `n` itself for negative `k`. -/
def shiftUp (n : Nat) (k : Int) : Nat := n <<< k.toNat

/-- The integer nearest to `num / den`, the even one of the two when `num / den` lies
halfway between two integers. -/
def roundHalfEven (num den : Nat) : Nat :=
  let q := num / den
  let r := num % den
  if 2 * r < den then q
  else if den < 2 * r then q + 1
  else if q % 2 = 0 then q
  else q + 1

/-- The binary exponent `e` of a positive fraction `n / d`: `2 ^ e ≤ n / d < 2 ^ (e + 1)`.
The difference `e0` of the digit counts is `e` or `e + 1`. -/
def binaryExponent (n d : Nat) : Int :=
  let e0 : Int := (bitLength n n : Int) - (bitLength d d : Int)
  if shiftUp d e0 ≤ shiftUp n (-e0) then e0 else e0 - 1

/-- The double nearest to the fraction `num / den` (`den` positive), ties to even: with `e`
the binary exponent, not below `-1022` (the exponent of the subnormal doubles), the doubles
around `|num / den|` are the multiples of `2 ^ (e - 52)`; the nearest multiple is taken, and
a result of `2 ^ 1024` or more is an infinity. -/
def roundFraction (num : Int) (den : Nat) : JSNumber :=
  if num = 0 then .finite 0
  else
    let e := max (binaryExponent num.natAbs den) (-1022)
    let k : Int := 52 - e
    let m := roundHalfEven (shiftUp num.natAbs k) (shiftUp den (-k))
    if (1 <<< 1024) ≤ shiftUp m (-k) then .infinity (decide (num < 0))
    else .finite (mkRat (if num < 0 then -(shiftUp m (-k) : Int) else shiftUp m (-k)) (shiftUp 1 k))

/-- The Number value of a real number: the nearest double (IEEE 754 round to nearest, ties
to even). -/
def roundToDouble (q : ℚ) : JSNumber := roundFraction q.num q.den

/-- The value `m * 10 ^ e` of a decimal literal with digits `m` and decimal exponent `e`. -/
def decimalValue (m : Nat) (e : Int) : ℚ :=
  match e with
  | .ofNat k => ((m * 10 ^ k : Nat) : ℚ)
  | .negSucc k => mkRat m (10 ^ (k + 1))

/-- `ExponentPart` (optional): `e` or `E`, an optional sign, at least one digit.  Returns the
exponent and the rest; when no well-formed exponent part is present nothing is consumed. -/
def scanExponent (cs : List Char) : Int × List Char :=
  match cs with
  | c :: r =>
    if c = 'e' || c = 'E' then
      match r with
      | '+' :: r2 =>
        match scanDigits r2 0 0 with
        | (_, 0, _) => (0, cs)
        | (x, _, rest) => (Int.ofNat x, rest)
      | '-' :: r2 =>
        match scanDigits r2 0 0 with
        | (_, 0, _) => (0, cs)
        | (x, _, rest) => (-Int.ofNat x, rest)
      | _ =>
        match scanDigits r 0 0 with
        | (_, 0, _) => (0, cs)
        | (x, _, rest) => (Int.ofNat x, rest)
    else (0, cs)
  | [] => (0, cs)

/-- The longest prefix that is a `StrUnsignedDecimalLiteral` (`Infinity`, `d.d?`, `.d`, `d`,
each of the last three with an optional exponent part): its value, as (`none` for
`Infinity`, else `some q`), and the rest of the input; `none` when no prefix is one. -/
def scanUnsigned (cs : List Char) : Option (Option ℚ × List Char) :=
  match cs with
  | 'I' :: 'n' :: 'f' :: 'i' :: 'n' :: 'i' :: 't' :: 'y' :: rest => some (none, rest)
  | _ =>
    match scanDigits cs 0 0 with
    | (ip, icnt, '.' :: r1) =>
      match scanDigits r1 0 0 with
      | (fp, fcnt, r2) =>
        if icnt = 0 ∧ fcnt = 0 then none
        else
          let (e, rest) := scanExponent r2
          some (some (decimalValue (ip * 10 ^ fcnt + fp) (e - fcnt)), rest)
    | (ip, icnt, r1) =>
      if icnt = 0 then none
      else
        let (e, rest) := scanExponent r1
        some (some (decimalValue ip e), rest)

/-- The longest prefix that is a `StrDecimalLiteral` (an optional sign, then a
`StrUnsignedDecimalLiteral`): the number it denotes and the rest of the input. -/
def scanDecimal (cs : List Char) : Option (JSNumber × List Char) :=
  match cs with
  | '+' :: r =>
    match scanUnsigned r with
    | some (some q, rest) => some (roundToDouble q, rest)
    | some (none, rest) => some (.infinity false, rest)
    | none => none
  | '-' :: r =>
    match scanUnsigned r with
    | some (some q, rest) => some (roundToDouble (-q), rest)
    | some (none, rest) => some (.infinity true, rest)
    | none => none
  | _ =>
    match scanUnsigned cs with
    | some (some q, rest) => some (roundToDouble q, rest)
    | some (none, rest) => some (.infinity false, rest)
    | none => none

/-- The built-in `parseFloat` on a string: skip leading white space, read the longest prefix
that is a `StrDecimalLiteral`; `NaN` when there is none. -/
def parseFloat (t : String) : JSNumber :=
  match scanDecimal (t.data.dropWhile isWhiteSpace) with
  | some (v, _) => v
  | none => .nan

/-- The value of a digit of a `NonDecimalIntegerLiteral` in the given radix, if it is one. -/
def radixDigit (radix : Nat) (c : Char) : Option Nat :=
  let n := c.toNat
  let d := if 48 ≤ n && n ≤ 57 then n - 48
    else if 97 ≤ n && n ≤ 102 then n - 87
    else if 65 ≤ n && n ≤ 70 then n - 55
    else radix
  if d < radix then some d else none

/-- The longest run of digits of the given radix at the front: value, count, rest. -/
def scanRadixDigits (radix : Nat) : List Char → Nat → Nat → Nat × Nat × List Char
  | [], acc, cnt => (acc, cnt, [])
  | c :: cs, acc, cnt =>
    match radixDigit radix c with
    | some d => scanRadixDigits radix cs (acc * radix + d) (cnt + 1)
    | none => (acc, cnt, c :: cs)

/-- A `NonDecimalIntegerLiteral` at the front (`0b`, `0o`, `0x` in either case, then at least
one digit of that radix): its value and the rest. -/
def scanNonDecimal (cs : List Char) : Option (JSNumber × List Char) :=
  match cs with
  | '0' :: p :: r =>
    let radix := if p = 'x' || p = 'X' then 16 else if p = 'o' || p = 'O' then 8
      else if p = 'b' || p = 'B' then 2 else 0
    if radix = 0 then none
    else
      match scanRadixDigits radix r 0 0 with
      | (_, 0, _) => none
      | (v, _, rest) => some (roundToDouble (v : ℚ), rest)
  | _ => none

/-- The coercion `Number(t)` of a string (`StringToNumber`): white space, then optionally a
`StrNumericLiteral` and white space again; the empty or all-blank string is `0`, and a
string that is not of this form is `NaN`. -/
def toNumber (t : String) : JSNumber :=
  match t.data.dropWhile isWhiteSpace with
  | [] => .finite 0
  | cs =>
    match scanNonDecimal cs with
    | some (v, rest) => if rest.all isWhiteSpace then v else .nan
    | none =>
      match scanDecimal cs with
      | some (v, rest) => if rest.all isWhiteSpace then v else .nan
      | none => .nan

/-- `String.prototype.trim`: drop the white space at both ends. -/
def trim (cs : List Char) : List Char :=
  ((cs.dropWhile isWhiteSpace).reverse.dropWhile isWhiteSpace).reverse

/-- Worker of `split`: the pieces between the maximal runs of white space; `inRun` says that
the previous character was white space. -/
def splitGo : Bool → List Char → List (List Char)
  | _, [] => [[]]
  | inRun, c :: cs =>
    if isWhiteSpace c then
      if inRun then splitGo true cs else [] :: splitGo true cs
    else
      match splitGo false cs with
      | p :: ps => (c :: p) :: ps
      | [] => [[c]]

/-- `s.split(/\s+/)`: cut at every maximal run of white space.  A string without white
space, the empty string included, is returned as its single piece. -/
def split (cs : List Char) : List (List Char) := splitGo false cs

/-- `String.prototype.toLowerCase`, on the ASCII letters (no other character lower-cases to
a letter of `exit`, the only word the source compares with). -/
def toLowerCase (cs : List Char) : List Char := cs.map Char.toLower

/-! ## Data model -/

/-- An entry of `this.stack`: a token text as it was pushed, or a number pushed by an
arithmetic operator (which may be an infinity). -/
inductive StackValue where
  | text (t : String)
  | num (x : JSNumber)
  deriving DecidableEq

/-- The errors thrown by the source, one constructor per `throw` (message in the comment). -/
inductive EvalError where
  /-- Message: `Variable ${t} is not defined.` -/
  | undefinedVariable (t : StackValue)
  /-- Message: `Invalid token: ${t}` -/
  | invalidToken (t : StackValue)
  /-- Message: `Assignment needs a variable and value.` -/
  | assignmentNeeds
  /-- Message: `LHS must be A-Z.` -/
  | lhsMustBeAZ
  /-- Message: `'${tok}' needs two operands.` -/
  | needsTwoOperands (tok : String)
  /-- Message: `Division by zero.` -/
  | divisionByZero
  /-- Message: `Stack is empty.` -/
  | stackEmpty
  /-- Message: `Need two items to swap.` -/
  | needTwoToSwap
  /-- Message: `Unknown token: ${tok}` -/
  | unknownToken (tok : String)
  deriving DecidableEq

/-- The error kinds named by the specification. -/
inductive ErrorKind where
  | InvalidToken
  | UnknownToken
  | UndefinedVariable
  | InsufficientOperands
  | InvalidAssignmentTarget
  | DivisionByZero
  | EmptyStack
  deriving DecidableEq

/-- The kind of each error of the source. -/
def EvalError.kind : EvalError → ErrorKind
  | .undefinedVariable _ => .UndefinedVariable
  | .invalidToken _ => .InvalidToken
  | .assignmentNeeds => .InsufficientOperands
  | .lhsMustBeAZ => .InvalidAssignmentTarget
  | .needsTwoOperands _ => .InsufficientOperands
  | .divisionByZero => .DivisionByZero
  | .stackEmpty => .EmptyStack
  | .needTwoToSwap => .InsufficientOperands
  | .unknownToken _ => .UnknownToken

/-- One call of `console.log` or `console.error`. -/
inductive Output where
  /-- `console.log(this.stack[this.stack.length - 1])` -/
  | value (v : StackValue)
  /-- `console.log("No vars defined.")` -/
  | noVars
  /-- `console.log(k = v)` for one entry of the symbol table -/
  | binding (k : StackValue) (v : ℚ)
  /-- `console.log` of the bracketed stack, entries in storage order -/
  | stackLine (stack : List StackValue)
  /-- `console.error` of `Error:` and the message of the error -/
  | errorLine (e : EvalError)
  deriving DecidableEq

/-- The `Map` `this.symbolTable`: its entries in insertion order. -/
abbrev SymbolTable := List (StackValue × ℚ)

/-- `Map.prototype.get`: the value stored under `k`, `none` for `undefined`. -/
def SymbolTable.get : SymbolTable → StackValue → Option ℚ
  | [], _ => none
  | (k1, v1) :: m, k => if k1 = k then some v1 else SymbolTable.get m k

/-- `Map.prototype.has`. -/
def SymbolTable.has (m : SymbolTable) (k : StackValue) : Bool := (m.get k).isSome

/-- `Map.prototype.set`: an existing key keeps its place and takes the new value, a new key
goes to the end. -/
def SymbolTable.set : SymbolTable → StackValue → ℚ → SymbolTable
  | [], k, v => [(k, v)]
  | (k1, v1) :: m, k, v => if k1 = k then (k, v) :: m else (k1, v1) :: SymbolTable.set m k v

/-- The fields of a `PostfixInterpreter`, and what it has written to the console. -/
structure Interp where
  stack : List StackValue
  symbolTable : SymbolTable
  console : List Output
  deriving DecidableEq

/-- How a piece of `evaluate` ends: normally, or by a `throw`; either way with the state the
interpreter is in at that moment. -/
inductive Outcome where
  | done (st : Interp)
  | thrown (e : EvalError) (st : Interp)
  deriving DecidableEq

/-- The interpreter state an outcome ends in. -/
def Outcome.state : Outcome → Interp
  | .done st => st
  | .thrown _ st => st

/-- The error of an outcome, if it is a `throw`. -/
def Outcome.error : Outcome → Option EvalError
  | .done _ => none
  | .thrown e _ => some e

/-! ## The interpreter -/

/-- `parseFloat(t)` for a stack entry: a string is parsed; a number is first written out by
`String(...)` and then read back, which gives the number itself (a finite number is read
back exactly, and `Infinity`, `-Infinity` and `NaN` are read back as themselves). -/
def parseFloatOf : StackValue → JSNumber
  | .text t => parseFloat t
  | .num x => x

/-- `this.isNumeric`: `!isNaN(parseFloat(t)) && isFinite(t)`.  For a string `isFinite`
coerces with `Number(t)`; for a number entry both tests are made on the number itself, so
it passes exactly when it is finite. -/
def isNumeric : StackValue → Bool
  | .text t => !(parseFloat t).isNaN && (toNumber t).isFinite
  | .num x => !x.isNaN && x.isFinite

/-- `this.isVariable`: the regular expression `^[A-Z]$` matches exactly the one-character
strings whose character is a capital letter `A` to `Z`; a number, written out as a string,
never matches. -/
def isVariable : StackValue → Bool
  | .text t =>
    match t.data with
    | [c] => 65 ≤ c.toNat && c.toNat ≤ 90
    | _ => false
  | .num _ => false

/-- `this.resolve`.  The branch `parseFloat` gives a non-finite number is never taken when
`isNumeric` holds (`parseFloatOf_finite_of_isNumeric`). -/
def resolve (symbolTable : SymbolTable) (t : StackValue) : Except EvalError ℚ :=
  if isNumeric t then
    match parseFloatOf t with
    | .finite q => .ok q
    | _ => .ok 0
  else if isVariable t then
    match symbolTable.get t with
    | none => .error (.undefinedVariable t)
    | some v => .ok v
  else .error (.invalidToken t)

/-- The object literal of the arithmetic branch, indexed by the operator token: each entry
is the exact result rounded to the nearest double.  The entry for `/` is read only when
`b` is not `0` (the guard of line 47); for `b = 0` it is `NaN` or an infinity. -/
def applyOp (tok : String) (a b : ℚ) : JSNumber :=
  if tok = "+" then roundToDouble (a + b)
  else if tok = "-" then roundToDouble (a - b)
  else if tok = "*" then roundToDouble (a * b)
  else if b = 0 then (if a = 0 then .nan else .infinity (decide (a < 0)))
  else roundToDouble (a / b)

/-- One turn of the loop of `evaluate`: the effect of the token `tok`.  Where the source
tests `this.stack.length < 2` and then pops twice, the stack is matched from its top:
`top :: second :: below` is the stack `below.reverse ++ [second, top]`. -/
def execToken (st : Interp) (tok : String) : Outcome :=
  if isNumeric (.text tok) || isVariable (.text tok) then
    .done { st with stack := st.stack ++ [.text tok] }
  else if tok = "=" then
    match st.stack.reverse with
    | valT :: varT :: below =>
      if !isVariable varT then .thrown .lhsMustBeAZ { st with stack := below.reverse }
      else
        match resolve st.symbolTable valT with
        | .error e => .thrown e { st with stack := below.reverse }
        | .ok v => .done { st with stack := [], symbolTable := st.symbolTable.set varT v }
    | _ => .thrown .assignmentNeeds st
  else if tok = "+" || tok = "-" || tok = "*" || tok = "/" then
    match st.stack.reverse with
    | tb :: ta :: below =>
      match resolve st.symbolTable tb with
      | .error e => .thrown e { st with stack := (ta :: below).reverse }
      | .ok b =>
        match resolve st.symbolTable ta with
        | .error e => .thrown e { st with stack := below.reverse }
        | .ok a =>
          if tok = "/" ∧ b = 0 then .thrown .divisionByZero { st with stack := below.reverse }
          else .done { st with stack := below.reverse ++ [.num (applyOp tok a b)] }
    | _ => .thrown (.needsTwoOperands tok) st
  else if tok = "PRINT" then
    match st.stack.getLast? with
    | none => .thrown .stackEmpty st
    | some top => .done { st with console := st.console ++ [.value top] }
  else if tok = "CLEAR" then
    .done { st with stack := [] }
  else if tok = "SHOWVARS" then
    if st.symbolTable.length = 0 then .done { st with console := st.console ++ [.noVars] }
    else
      .done { st with console := st.console ++ st.symbolTable.map fun kv => .binding kv.1 kv.2 }
  else if tok = "DUP" then
    match st.stack.getLast? with
    | none => .thrown .stackEmpty st
    | some top => .done { st with stack := st.stack ++ [top] }
  else if tok = "SWAP" then
    match st.stack.reverse with
    | b :: a :: below => .done { st with stack := below.reverse ++ [b, a] }
    | _ => .thrown .needTwoToSwap st
  else if tok = "DROP" then
    if st.stack.length = 0 then .thrown .stackEmpty st
    else .done { st with stack := st.stack.dropLast }
  else .thrown (.unknownToken tok) st

/-- The loop of `evaluate` over the tokens: left to right, ended by the first `throw`. -/
def evalTokens (st : Interp) : List String → Outcome
  | [] => .done st
  | tok :: rest =>
    match execToken st tok with
    | .done st1 => evalTokens st1 rest
    | .thrown e st1 => .thrown e st1

/-- The tokens of a line: `line.trim().split(/\s+/)`. -/
def tokens (line : String) : List String := (split (trim line.data)).map String.mk

/-- `this.evaluate`. -/
def evaluate (st : Interp) (line : String) : Outcome := evalTokens st (tokens line)

/-- The test `line.trim().toLowerCase() === 'exit'` of the line handler. -/
def isExit (line : String) : Bool := toLowerCase (trim line.data) = "exit".data

/-- The `line` handler of `run`: `none` when the line closes the session, else the state
after the line: the stack is printed after a successful `evaluate`, and after a `throw` the
error is reported and the stack emptied. -/
def handleLine (st : Interp) (line : String) : Option Interp :=
  if isExit line then none
  else
    match evaluate st line with
    | .done st1 => some { st1 with console := st1.console ++ [.stackLine st1.stack] }
    | .thrown e st1 => some { st1 with stack := [], console := st1.console ++ [.errorLine e] }

/-- A fresh `new PostfixInterpreter()`. -/
def fresh : Interp := { stack := [], symbolTable := [], console := [] }

/-- Words written on one line with a single space between neighbours. -/
def joinWords : List (List Char) → List Char
  | [] => []
  | [w] => w
  | w :: w2 :: ws => w ++ ' ' :: joinWords (w2 :: ws)

/-- The interpreter after a sequence of `evaluate` calls, one per line, each starting from
the state the previous call ended in (also when that call ended by a `throw`). -/
def evaluateAll (st : Interp) : List String → Interp
  | [] => st
  | line :: rest => evaluateAll (evaluate st line).state rest

/-- The interpreter after the line handler of `run` has received the lines, up to the line
that closes the session. -/
def runLines (st : Interp) : List String → Interp
  | [] => st
  | line :: rest =>
    match handleLine st line with
    | none => st
    | some st1 => runLines st1 rest

/-- Following the specification's words ("split on runs of whitespace into a sequence of
tokens"): the maximal runs of characters that are not white space, in the order in which
they stand in the line. -/
def maximalRuns : List Char → List (List Char)
  | [] => []
  | [c] => if isWhiteSpace c then [] else [[c]]
  | c :: d :: r =>
    if isWhiteSpace c then maximalRuns (d :: r)
    else if isWhiteSpace d then [c] :: maximalRuns (d :: r)
    else
      match maximalRuns (d :: r) with
      | p :: ps => (c :: p) :: ps
      | [] => [[c]]

/-- A line that is empty or has only white space in it. -/
def isBlank (line : String) : Bool := line.data.all isWhiteSpace

/-- The keys of the symbol table, in the order in which `forEach` visits the entries. -/
def SymbolTable.keys (m : SymbolTable) : List StackValue := m.map Prod.fst

/-- What `SHOWVARS` writes for a symbol table: the notice when `size` is `0`, else one
`console.log` per entry in the order of `forEach`. -/
def showVarsOutput (m : SymbolTable) : List Output :=
  if m.length = 0 then [.noVars] else m.map fun kv => .binding kv.1 kv.2

/-- Every entry of the stack is accepted by `isNumeric` or by `isVariable`: it is the text
of a number token, the text of a variable token, or a finite number. -/
def wellFormedStack (stack : List StackValue) : Bool :=
  stack.all fun v => isNumeric v || isVariable v

/-- An entry as the loop of `evaluate` can push it: the text of a token that `isNumeric` or
`isVariable` accepts, or a number that is not `NaN` (finite, or an infinity after an
overflow). -/
def pushable : StackValue → Bool
  | .text t => isNumeric (.text t) || isVariable (.text t)
  | .num x => !x.isNaN

/-- Every entry of the stack is `pushable`. -/
def pushableStack (stack : List StackValue) : Bool := stack.all pushable

/-- The states an interpreter can be in: it starts with an empty stack, and each step is a
call of `evaluate` (ending normally or by a `throw`) or a line given to the line handler of
`run`. -/
inductive Reachable : Interp → Prop where
  | start (st : Interp) (h : st.stack = []) : Reachable st
  | evaluate (st : Interp) (line : String) (h : Reachable st) :
      Reachable (PostfixInterpreter.evaluate st line).state
  | handleLine (st st1 : Interp) (line : String) (h : Reachable st)
      (h1 : PostfixInterpreter.handleLine st line = some st1) : Reachable st1

/-! ## Auxiliary lemmas -/

/-- Nothing is read from the empty input. -/
theorem scanDecimal_nil : scanDecimal [] = none := by rfl

/-- A binary, octal or hexadecimal literal starts with `0`, which is all `parseFloat` reads of it. -/
theorem scanDecimal_of_scanNonDecimal (cs : List Char) (v : JSNumber) (rest : List Char)
    (h : scanNonDecimal cs = some (v, rest)) :
    ∃ rest1, scanDecimal cs = some (.finite 0, rest1) := by
  unfold scanNonDecimal at h
  split at h
  · rename_i p r
    by_cases hx : p = 'x' ∨ p = 'X' ∨ p = 'o' ∨ p = 'O' ∨ p = 'b' ∨ p = 'B'
    · rcases hx with hx | hx | hx | hx | hx | hx <;> subst hx <;> exact ⟨_, by with_unfolding_all rfl⟩
    · simp only [not_or] at hx
      obtain ⟨h1, h2, h3, h4, h5, h6⟩ := hx
      simp [h1, h2, h3, h4, h5, h6] at h
  · simp at h

/-- When `isNumeric` holds, `parseFloat` gives a finite number. -/
theorem parseFloatOf_finite_of_isNumeric (t : StackValue) (h : isNumeric t = true) :
    ∃ q, parseFloatOf t = .finite q := by
  cases t with
  | num x =>
    cases x with
    | finite q => exact ⟨q, rfl⟩
    | nan => simp [isNumeric, JSNumber.isNaN] at h
    | infinity n => simp [isNumeric, JSNumber.isFinite] at h
  | text t =>
    simp only [isNumeric, Bool.and_eq_true, Bool.not_eq_true'] at h
    obtain ⟨h1, h2⟩ := h
    simp only [parseFloatOf, parseFloat] at h1 ⊢
    unfold toNumber at h2
    generalize t.data.dropWhile isWhiteSpace = L at h1 h2
    cases hL : L with
    | nil => subst hL; simp [scanDecimal_nil, JSNumber.isNaN] at h1
    | cons c cs =>
      rw [← hL]
      rw [hL] at h2
      simp only at h2
      rw [← hL] at h2
      cases hn : scanNonDecimal L with
      | some vr =>
        obtain ⟨v, rest⟩ := vr
        obtain ⟨rest1, hd⟩ := scanDecimal_of_scanNonDecimal L v rest hn
        rw [hd]; exact ⟨0, rfl⟩
      | none =>
        rw [hn] at h2
        simp only at h2
        cases hd : scanDecimal L with
        | none => rw [hd] at h1; simp [JSNumber.isNaN] at h1
        | some vr =>
          obtain ⟨v, rest⟩ := vr
          rw [hd] at h2
          simp only at h2 ⊢
          split at h2
          · cases v with
            | finite q => exact ⟨q, rfl⟩
            | nan => simp [JSNumber.isFinite] at h2
            | infinity n => simp [JSNumber.isFinite] at h2
          · simp [JSNumber.isFinite] at h2

/-- After `set k v`, `get k` is `v`. -/
theorem SymbolTable.get_set_self (m : SymbolTable) (k : StackValue) (v : ℚ) :
    (m.set k v).get k = some v := by
  induction m with
  | nil => simp [SymbolTable.set, SymbolTable.get]
  | cons kv m ih =>
    obtain ⟨k1, v1⟩ := kv
    by_cases h : k1 = k
    · simp [SymbolTable.set, SymbolTable.get, h]
    · simp [SymbolTable.set, SymbolTable.get, h, ih]

/-- The value under any other key is not touched by `set`. -/
theorem SymbolTable.get_set_other (m : SymbolTable) (k k2 : StackValue) (v : ℚ) (hk : k2 ≠ k) :
    (m.set k v).get k2 = m.get k2 := by
  induction m with
  | nil => simp [SymbolTable.set, SymbolTable.get, Ne.symm hk]
  | cons kv m ih =>
    obtain ⟨k1, v1⟩ := kv
    by_cases h : k1 = k
    · subst h
      simp [SymbolTable.set, SymbolTable.get, Ne.symm hk]
    · by_cases h2 : k1 = k2
      · subst h2
        simp [SymbolTable.set, SymbolTable.get, h]
      · simp [SymbolTable.set, SymbolTable.get, h, h2, ih]

/-- Every key that was bound is still bound after `set`. -/
theorem SymbolTable.has_set (m : SymbolTable) (k k2 : StackValue) (v : ℚ)
    (h : m.has k2 = true) : (m.set k v).has k2 = true := by
  by_cases hk : k2 = k
  · subst hk; simp [SymbolTable.has, SymbolTable.get_set_self]
  · simpa [SymbolTable.has, SymbolTable.get_set_other m k k2 v hk] using h

/-- The loop over `p ++ r` is the loop over `p`, then over `r` if `p` ended normally. -/
theorem evalTokens_append (st : Interp) (p r : List String) :
    evalTokens st (p ++ r) =
      match evalTokens st p with
      | .done st1 => evalTokens st1 r
      | .thrown e st1 => .thrown e st1 := by
  induction p generalizing st with
  | nil => simp [evalTokens]
  | cons t p ih =>
    simp only [List.cons_append, evalTokens]
    cases execToken st t with
    | done st1 => simpa using ih st1
    | thrown e st1 => simp

/-- The worker of `split` always returns at least one piece. -/
theorem splitGo_ne_nil (b : Bool) (cs : List Char) : splitGo b cs ≠ [] := by
  induction cs generalizing b with
  | nil => simp [splitGo]
  | cons c cs ih =>
    unfold splitGo
    by_cases hc : isWhiteSpace c = true
    · cases b <;> simp [hc, ih]
    · simp only [hc]
      cases h : splitGo false cs <;> simp

/-- A word (no white space in it) in front of the input joins the first piece. -/
theorem splitGo_word_append (w rest p : List Char) (ps : List (List Char)) (b : Bool)
    (hw : ∀ c ∈ w, isWhiteSpace c = false) (hne : w ≠ [])
    (hr : splitGo false rest = p :: ps) :
    splitGo b (w ++ rest) = (w ++ p) :: ps := by
  induction w generalizing b with
  | nil => exact absurd rfl hne
  | cons c w ih =>
    have hc : isWhiteSpace c = false := hw c (List.mem_cons_self _ _)
    have hw2 : ∀ c ∈ w, isWhiteSpace c = false := fun d hd => hw d (List.mem_cons_of_mem _ hd)
    by_cases hwn : w = []
    · subst hwn
      simp only [List.cons_append, List.nil_append]
      rw [splitGo.eq_2]
      simp [hc, hr]
    · have h2 := ih false hw2 hwn
      simp only [List.cons_append]
      rw [splitGo.eq_2]
      simp [hc, h2]

/-- White space outside a run closes the current piece. -/
theorem splitGo_space (c : Char) (rest : List Char) (hc : isWhiteSpace c = true) :
    splitGo false (c :: rest) = [] :: splitGo true rest := by
  rw [splitGo.eq_2]; simp [hc]

/-- At a character that is not white space the flag does not matter. -/
theorem splitGo_true_word (c : Char) (rest : List Char) (hc : isWhiteSpace c = false) :
    splitGo true (c :: rest) = splitGo false (c :: rest) := by
  rw [splitGo.eq_2, splitGo.eq_2]; simp [hc]

/-- A string whose first and last characters are not white space is its own `trim`. -/
theorem trim_eq_of_ends (cs : List Char)
    (h1 : ∀ c, cs.head? = some c → isWhiteSpace c = false)
    (h2 : ∀ c, cs.getLast? = some c → isWhiteSpace c = false) : trim cs = cs := by
  have e1 : cs.dropWhile isWhiteSpace = cs := by
    cases cs with
    | nil => rfl
    | cons c cs => simp [List.dropWhile, h1 c rfl]
  have e2 : cs.reverse.dropWhile isWhiteSpace = cs.reverse := by
    cases h : cs.reverse with
    | nil => rfl
    | cons c r =>
      have hl : cs.getLast? = some c := by
        rw [← List.head?_reverse, h]; rfl
      simp [List.dropWhile, h2 c hl]
  simp [trim, e1, e2]

/-- Words written with single spaces between them are split back into the same words. -/
theorem split_joinWords (b : Bool) (w : List Char) (ws : List (List Char))
    (hw : ∀ x ∈ w :: ws, x ≠ [] ∧ ∀ c ∈ x, isWhiteSpace c = false) :
    splitGo b (joinWords (w :: ws)) = w :: ws := by
  induction ws generalizing b w with
  | nil =>
    have h := hw w (List.mem_cons_self _ _)
    have := splitGo_word_append w [] [] [] b h.2 h.1 rfl
    simpa [joinWords] using this
  | cons w2 ws ih =>
    have h := hw w (List.mem_cons_self _ _)
    have hw2 : ∀ x ∈ w2 :: ws, x ≠ [] ∧ ∀ c ∈ x, isWhiteSpace c = false :=
      fun x hx => hw x (List.mem_cons_of_mem _ hx)
    have e1 : splitGo false (' ' :: joinWords (w2 :: ws)) = [] :: (w2 :: ws) := by
      rw [splitGo_space _ _ (by decide), ih true w2 hw2]
    have := splitGo_word_append w (' ' :: joinWords (w2 :: ws)) [] (w2 :: ws) b h.2 h.1 e1
    simpa [joinWords] using this

/-- The first character of joined words is that of the first word. -/
theorem joinWords_head (w : List Char) (ws : List (List Char)) (hne : w ≠ []) :
    (joinWords (w :: ws)).head? = w.head? := by
  cases w with
  | nil => exact absurd rfl hne
  | cons c w => cases ws <;> simp [joinWords]

/-- The last character of joined words is that of the last word. -/
theorem joinWords_getLast (w : List Char) (ws : List (List Char))
    (hw : ∀ x ∈ w :: ws, x ≠ []) :
    (joinWords (w :: ws)).getLast? = ((w :: ws).getLast (by simp)).getLast? := by
  induction ws generalizing w with
  | nil => simp [joinWords]
  | cons w2 ws ih =>
    have hw2 : ∀ x ∈ w2 :: ws, x ≠ [] := fun x hx => hw x (List.mem_cons_of_mem _ hx)
    have h := ih w2 hw2
    have hne : joinWords (w2 :: ws) ≠ [] := by
      intro hj
      have := joinWords_head w2 ws (hw2 w2 (List.mem_cons_self _ _))
      rw [hj] at this
      cases w2 with
      | nil => exact hw2 [] (List.mem_cons_self _ _) rfl
      | cons c w2 => simp at this
    simp only [joinWords]
    rw [List.getLast?_append_of_ne_nil _ (by simp)]
    obtain ⟨c, r, hcr⟩ := List.exists_cons_of_ne_nil hne
    rw [hcr] at h ⊢
    rw [List.getLast?_cons_cons, h]
    simp [List.getLast_cons]

/-- The tokens of a line of words separated by single spaces are the words. -/
theorem tokens_joinWords (line : String) (w : List Char) (ws : List (List Char))
    (hl : line.data = joinWords (w :: ws))
    (hw : ∀ x ∈ w :: ws, x ≠ [] ∧ ∀ c ∈ x, isWhiteSpace c = false) :
    tokens line = (w :: ws).map String.mk := by
  have hne : ∀ x ∈ w :: ws, x ≠ [] := fun x hx => (hw x hx).1
  have ht : trim (joinWords (w :: ws)) = joinWords (w :: ws) := by
    apply trim_eq_of_ends
    · intro c hc
      rw [joinWords_head w ws (hne w (List.mem_cons_self _ _))] at hc
      exact (hw w (List.mem_cons_self _ _)).2 c (List.mem_of_mem_head? hc)
    · intro c hc
      rw [joinWords_getLast w ws hne] at hc
      exact (hw _ (List.getLast_mem _)).2 c (List.mem_of_mem_getLast? hc)
  simp only [tokens, hl, ht, split]
  rw [split_joinWords false w ws hw]

/-- The operator tokens and `=` are neither numbers nor variables. -/
theorem not_first_branch_op (tok : String)
    (h : tok = "+" ∨ tok = "-" ∨ tok = "*" ∨ tok = "/" ∨ tok = "=") :
    (isNumeric (.text tok) || isVariable (.text tok)) = false := by
  rcases h with h | h | h | h | h <;> subst h <;> with_unfolding_all decide

/-- A string that `isVariable` accepts is one capital letter. -/
theorem isVariable_text (t : String) (h : isVariable (.text t) = true) :
    ∃ c : Char, t = String.mk [c] ∧ 65 ≤ c.toNat ∧ c.toNat ≤ 90 := by
  obtain ⟨d⟩ := t
  simp only [isVariable] at h
  split at h
  · rename_i c
    simp only [Bool.and_eq_true, decide_eq_true_eq] at h
    exact ⟨c, rfl, h.1, h.2⟩
  · simp at h

/-- The characters with code 65 to 90 are the capital letters. -/
theorem capital_cases (c : Char) (h1 : 65 ≤ c.toNat) (h2 : c.toNat ≤ 90) :
    c ∈ "ABCDEFGHIJKLMNOPQRSTUVWXYZ".data := by
  have hc : c = Char.ofNat c.toNat := (Char.ofNat_toNat c).symm
  generalize c.toNat = n at hc h1 h2
  subst hc
  interval_cases n <;> decide

/-- A single capital letter is not a number and not white space. -/
theorem isNumeric_capital (c : Char) (h1 : 65 ≤ c.toNat) (h2 : c.toNat ≤ 90) :
    isNumeric (.text (String.mk [c])) = false ∧ isWhiteSpace c = false := by
  have h := capital_cases c h1 h2
  simp only [String.data, List.mem_cons, List.mem_singleton] at h
  simp only [List.not_mem_nil, or_false] at h
  rcases h with h | h | h | h | h | h | h | h | h | h | h | h | h | h | h | h | h | h | h | h |
    h | h | h | h | h | h <;> subst h <;> with_unfolding_all decide

/-- The empty string is not a number. -/
theorem isNumeric_data_ne_nil (t : String) (h : isNumeric (.text t) = true) : t.data ≠ [] := by
  intro hd
  obtain ⟨d⟩ := t
  simp only at hd
  subst hd
  revert h
  with_unfolding_all decide

/-- An entry that `isNumeric` accepts resolves to what `parseFloat` reads. -/
theorem resolve_of_isNumeric (m : SymbolTable) (t : StackValue) (h : isNumeric t = true) :
    ∃ q, parseFloatOf t = .finite q ∧ resolve m t = .ok q := by
  obtain ⟨q, hq⟩ := parseFloatOf_finite_of_isNumeric t h
  exact ⟨q, hq, by simp [resolve, h, hq]⟩

/-- The first branch of the loop: push the text of the token. -/
theorem execToken_push (st : Interp) (tok : String)
    (h : (isNumeric (.text tok) || isVariable (.text tok)) = true) :
    execToken st tok = .done { st with stack := st.stack ++ [.text tok] } := by
  unfold execToken
  rw [if_pos h]

/-- The assignment branch when it succeeds. -/
theorem execToken_assign (st : Interp) (s : List StackValue) (v t : StackValue)
    (n : ℚ) (hs : st.stack = s ++ [v, t]) (hv : isVariable v = true)
    (ht : resolve st.symbolTable t = .ok n) :
    execToken st "=" = .done { st with stack := [], symbolTable := st.symbolTable.set v n } := by
  have hrev : st.stack.reverse = t :: v :: s.reverse := by simp [hs]
  unfold execToken
  rw [not_first_branch_op "=" (by simp)]
  simp [hrev, hv, ht]

/-- The assignment branch when the left-hand side is not a variable. -/
theorem execToken_assign_lhs (st : Interp) (s : List StackValue) (v t : StackValue)
    (hs : st.stack = s ++ [v, t]) (hv : isVariable v = false) :
    execToken st "=" = .thrown .lhsMustBeAZ { st with stack := s } := by
  have hrev : st.stack.reverse = t :: v :: s.reverse := by simp [hs]
  unfold execToken
  rw [not_first_branch_op "=" (by simp)]
  simp [hrev, hv]

/-- The arithmetic branch when both operands resolve and no division by zero occurs. -/
theorem execToken_arith (st : Interp) (s : List StackValue) (x y : StackValue) (a b : ℚ)
    (tok : String) (hop : tok = "+" ∨ tok = "-" ∨ tok = "*" ∨ tok = "/")
    (hs : st.stack = s ++ [x, y])
    (hx : resolve st.symbolTable x = .ok a) (hy : resolve st.symbolTable y = .ok b)
    (hz : ¬ (tok = "/" ∧ b = 0)) :
    execToken st tok = .done { st with stack := s ++ [.num (applyOp tok a b)] } := by
  have hrev : st.stack.reverse = y :: x :: s.reverse := by simp [hs]
  have hnf := not_first_branch_op tok (by tauto)
  have hne : tok ≠ "=" := by rcases hop with h | h | h | h <;> subst h <;> decide
  have hop2 : (tok = "+" ∨ tok = "-" ∨ tok = "*" ∨ tok = "/") := hop
  unfold execToken
  rw [hnf]
  simp only [Bool.false_eq_true, if_false, hne, hrev, hx, hy]
  simp only [Bool.or_eq_true, decide_eq_true_eq]
  rw [if_pos (by tauto), if_neg hz]
  simp

/-- A stack read from the top as `y`, `x`, `r` is `r.reverse ++ [x, y]`. -/
theorem reverse_eq_cons_cons (l : List StackValue) (y x : StackValue) (r : List StackValue)
    (h : l.reverse = y :: x :: r) : l = r.reverse ++ [x, y] := by
  have := congrArg List.reverse h
  simpa using this

/-- The outcome of `/` in each of its cases. -/
theorem execToken_div_cases (st : Interp) :
    (st.stack.length < 2 ∧ execToken st "/" = .thrown (.needsTwoOperands "/") st) ∨
    (∃ s x y, st.stack = s ++ [x, y] ∧
      ((∃ e, resolve st.symbolTable y = .error e ∧
          execToken st "/" = .thrown e { st with stack := s ++ [x] }) ∨
       (∃ b e, resolve st.symbolTable y = .ok b ∧ resolve st.symbolTable x = .error e ∧
          execToken st "/" = .thrown e { st with stack := s }) ∨
       (∃ a, resolve st.symbolTable y = .ok 0 ∧ resolve st.symbolTable x = .ok a ∧
          execToken st "/" = .thrown .divisionByZero { st with stack := s }) ∨
       (∃ a b, b ≠ 0 ∧ resolve st.symbolTable y = .ok b ∧ resolve st.symbolTable x = .ok a ∧
          execToken st "/" =
            .done { st with stack := s ++ [.num (roundToDouble (a / b))] }))) := by
  have hnf := not_first_branch_op "/" (by simp)
  cases hrev : st.stack.reverse with
  | nil =>
    left
    have : st.stack = [] := by simpa using hrev
    refine ⟨by simp [this], ?_⟩
    unfold execToken
    rw [hnf]
    simp [hrev]
  | cons y r =>
    cases r with
    | nil =>
      left
      have : st.stack = [y] := by
        have := congrArg List.reverse hrev
        simpa using this
      refine ⟨by simp [this], ?_⟩
      unfold execToken
      rw [hnf]
      simp [hrev]
    | cons x r =>
      right
      refine ⟨r.reverse, x, y, reverse_eq_cons_cons _ _ _ _ hrev, ?_⟩
      cases hy : resolve st.symbolTable y with
      | error e =>
        left
        refine ⟨e, rfl, ?_⟩
        unfold execToken
        rw [hnf]
        simp [hrev, hy]
      | ok b =>
        cases hx : resolve st.symbolTable x with
        | error e =>
          right; left
          refine ⟨b, e, rfl, rfl, ?_⟩
          unfold execToken
          rw [hnf]
          simp [hrev, hy, hx]
        | ok a =>
          by_cases hb : b = 0
          · right; right; left
            subst hb
            refine ⟨a, rfl, rfl, ?_⟩
            unfold execToken
            rw [hnf]
            simp [hrev, hy, hx]
          · right; right; right
            refine ⟨a, b, hb, rfl, rfl, ?_⟩
            unfold execToken
            rw [hnf]
            simp [hrev, hy, hx, hb, applyOp]

/-- The errors of `resolve` are not `Division by zero.` -/
theorem resolve_error_ne_divisionByZero (m : SymbolTable) (t : StackValue) (e : EvalError)
    (h : resolve m t = .error e) : e ≠ .divisionByZero := by
  unfold resolve at h
  split at h
  · split at h <;> simp at h
  · split at h
    · split at h
      · simp at h; subst h; simp
      · simp at h
    · simp at h; subst h; simp

/-- A token other than `=` leaves the symbol table as it was. -/
theorem execToken_symbolTable_of_ne (st : Interp) (tok : String) (h : tok ≠ "=") :
    (execToken st tok).state.symbolTable = st.symbolTable := by
  unfold execToken
  simp only [h, if_false]
  repeat' split
  all_goals simp [Outcome.state]

/-- The token `=` either succeeds by `set`, or throws and leaves the symbol table as it was. -/
theorem execToken_assign_cases (st : Interp) :
    (execToken st "=").state.symbolTable = st.symbolTable ∧ (execToken st "=").error ≠ none ∨
    ∃ s v t n, st.stack = s ++ [v, t] ∧ isVariable v = true ∧
      resolve st.symbolTable t = .ok n ∧
      execToken st "=" = .done { st with stack := [], symbolTable := st.symbolTable.set v n } := by
  have hnf := not_first_branch_op "=" (by simp)
  cases hrev : st.stack.reverse with
  | nil =>
    left
    unfold execToken
    rw [hnf]
    simp [hrev, Outcome.state, Outcome.error]
  | cons t r =>
    cases r with
    | nil =>
      left
      unfold execToken
      rw [hnf]
      simp [hrev, Outcome.state, Outcome.error]
    | cons v r =>
      have hs := reverse_eq_cons_cons _ _ _ _ hrev
      cases hv : isVariable v with
      | false =>
        left
        rw [execToken_assign_lhs st r.reverse v t hs hv]
        simp [Outcome.state, Outcome.error]
      | true =>
        cases ht : resolve st.symbolTable t with
        | error e =>
          left
          unfold execToken
          rw [hnf]
          simp [hrev, hv, ht, Outcome.state, Outcome.error]
        | ok n =>
          right
          exact ⟨r.reverse, v, t, n, hs, hv, ht, execToken_assign st _ v t n hs hv ht⟩

/-- A bound key is still bound after any token. -/
theorem execToken_has (st : Interp) (tok : String) (k : StackValue)
    (h : st.symbolTable.has k = true) : (execToken st tok).state.symbolTable.has k = true := by
  by_cases ht : tok = "="
  · subst ht
    rcases execToken_assign_cases st with ⟨h1, _⟩ | ⟨s, v, t, n, _, _, _, he⟩
    · rw [h1]; exact h
    · rw [he]; exact SymbolTable.has_set _ _ _ _ h
  · rw [execToken_symbolTable_of_ne st tok ht]; exact h

/-- A bound key is still bound after any sequence of tokens. -/
theorem evalTokens_has (st : Interp) (toks : List String) (k : StackValue)
    (h : st.symbolTable.has k = true) : (evalTokens st toks).state.symbolTable.has k = true := by
  induction toks generalizing st with
  | nil => exact h
  | cons t toks ih =>
    have h1 := execToken_has st t k h
    simp only [evalTokens]
    cases he : execToken st t with
    | done st1 => rw [he] at h1; exact ih st1 h1
    | thrown e st1 => rw [he] at h1; exact h1

/-- The line handler leaves the symbol table as `evaluate` left it. -/
theorem handleLine_symbolTable (st st2 : Interp) (line : String)
    (h : handleLine st line = some st2) :
    st2.symbolTable = (evaluate st line).state.symbolTable := by
  unfold handleLine at h
  split at h
  · simp at h
  · cases he : evaluate st line with
    | done st1 => rw [he] at h; simp at h; subst h; rfl
    | thrown e st1 => rw [he] at h; simp at h; subst h; rfl

/-- White space in front belongs to no run. -/
theorem maximalRuns_ws (c : Char) (cs : List Char) (hc : isWhiteSpace c = true) :
    maximalRuns (c :: cs) = maximalRuns cs := by
  cases cs with
  | nil => rw [maximalRuns.eq_2, if_pos hc]; rfl
  | cons d r => rw [maximalRuns.eq_3, if_pos hc]

/-- A single character that is not white space is one run. -/
theorem maximalRuns_single (c : Char) (hc : isWhiteSpace c = false) :
    maximalRuns [c] = [[c]] := by
  rw [maximalRuns.eq_2, if_neg (by simp [hc])]

/-- A character followed by white space ends its run. -/
theorem maximalRuns_cons_ws (c d : Char) (r : List Char) (hc : isWhiteSpace c = false)
    (hd : isWhiteSpace d = true) :
    maximalRuns (c :: d :: r) = [c] :: maximalRuns (d :: r) := by
  rw [maximalRuns.eq_3, if_neg (by simp [hc]), if_pos hd]

/-- A character followed by another one that is not white space joins the run of that one. -/
theorem maximalRuns_cons_cons (c d : Char) (r : List Char) (hc : isWhiteSpace c = false)
    (hd : isWhiteSpace d = false) :
    maximalRuns (c :: d :: r) =
      match maximalRuns (d :: r) with
      | p :: ps => (c :: p) :: ps
      | [] => [[c]] := by
  rw [maximalRuns.eq_3, if_neg (by simp [hc]), if_neg (by simp [hd])]

/-- A character that is not white space joins the first piece of what follows. -/
theorem splitGo_nonws (b : Bool) (c : Char) (cs : List Char) (hc : isWhiteSpace c = false) :
    splitGo b (c :: cs) =
      match splitGo false cs with
      | p :: ps => (c :: p) :: ps
      | [] => [[c]] := by
  rw [splitGo.eq_2, if_neg (by simp [hc])]

/-- Inside a run of white space, one more white-space character changes nothing. -/
theorem splitGo_ws_true (c : Char) (cs : List Char) (hc : isWhiteSpace c = true) :
    splitGo true (c :: cs) = splitGo true cs := by
  rw [splitGo.eq_2, if_pos hc, if_pos rfl]

/-- On a string that does not end in white space, `split` gives the maximal runs, with one
empty piece in front when the string starts with white space. -/
theorem splitGo_maximalRuns (c : Char) (cs : List Char)
    (hl : ∀ d, (c :: cs).getLast? = some d → isWhiteSpace d = false) :
    splitGo true (c :: cs) = maximalRuns (c :: cs) ∧
    splitGo false (c :: cs) =
      if isWhiteSpace c then [] :: maximalRuns (c :: cs) else maximalRuns (c :: cs) := by
  induction cs generalizing c with
  | nil =>
    have hc : isWhiteSpace c = false := hl c rfl
    have h1 : ∀ b, splitGo b [c] = [[c]] := by
      intro b
      rw [splitGo_nonws b c [] hc]
      rfl
    rw [h1, h1, maximalRuns_single c hc, if_neg (by simp [hc])]
    exact ⟨rfl, rfl⟩
  | cons d r ih =>
    have hl2 : ∀ e, (d :: r).getLast? = some e → isWhiteSpace e = false := by
      intro e he
      apply hl e
      rw [List.getLast?_cons_cons]; exact he
    obtain ⟨ih1, ih2⟩ := ih d hl2
    by_cases hc : isWhiteSpace c = true
    · rw [splitGo_ws_true c _ hc, splitGo_space c _ hc, maximalRuns_ws c _ hc, if_pos hc, ih1]
      exact ⟨rfl, rfl⟩
    · have hc2 : isWhiteSpace c = false := by simpa using hc
      have key : ∀ b, splitGo b (c :: d :: r) = maximalRuns (c :: d :: r) := by
        intro b
        rw [splitGo_nonws b c _ hc2, ih2]
        by_cases hd : isWhiteSpace d = true
        · rw [if_pos hd, maximalRuns_cons_ws c d r hc2 hd]
        · have hd2 : isWhiteSpace d = false := by simpa using hd
          rw [if_neg hd, maximalRuns_cons_cons c d r hc2 hd2]
      rw [key, key, if_neg hc]
      exact ⟨rfl, rfl⟩

/-- The runs do not change when the leading white space is dropped. -/
theorem maximalRuns_dropWhile (cs : List Char) :
    maximalRuns (cs.dropWhile isWhiteSpace) = maximalRuns cs := by
  induction cs with
  | nil => rfl
  | cons c cs ih =>
    by_cases hc : isWhiteSpace c = true
    · rw [List.dropWhile_cons_of_pos hc, ih, maximalRuns_ws c cs hc]
    · rw [List.dropWhile_cons_of_neg hc]

/-- The runs do not change when one white-space character is added at the end. -/
theorem maximalRuns_concat_ws (cs : List Char) (w : Char) (hw : isWhiteSpace w = true) :
    maximalRuns (cs ++ [w]) = maximalRuns cs := by
  induction cs with
  | nil => rw [List.nil_append, maximalRuns_ws w [] hw]
  | cons c cs ih =>
    by_cases hc : isWhiteSpace c = true
    · rw [List.cons_append, maximalRuns_ws c _ hc, maximalRuns_ws c _ hc, ih]
    · have hc2 : isWhiteSpace c = false := by simpa using hc
      cases cs with
      | nil =>
        rw [List.cons_append, List.nil_append, maximalRuns_cons_ws c w [] hc2 hw,
          maximalRuns_ws w [] hw, maximalRuns_single c hc2]
        rfl
      | cons d r =>
        by_cases hd : isWhiteSpace d = true
        · rw [List.cons_append, List.cons_append, maximalRuns_cons_ws c d _ hc2 hd,
            maximalRuns_cons_ws c d _ hc2 hd, ← List.cons_append, ih]
        · have hd2 : isWhiteSpace d = false := by simpa using hd
          rw [List.cons_append, List.cons_append, maximalRuns_cons_cons c d _ hc2 hd2,
            maximalRuns_cons_cons c d _ hc2 hd2, ← List.cons_append, ih]

/-- The runs do not change when the trailing white space is dropped. -/
theorem maximalRuns_reverse_dropWhile (r : List Char) :
    maximalRuns (r.dropWhile isWhiteSpace).reverse = maximalRuns r.reverse := by
  induction r with
  | nil => rfl
  | cons w r ih =>
    by_cases hw : isWhiteSpace w = true
    · rw [List.dropWhile_cons_of_pos hw, ih, List.reverse_cons, maximalRuns_concat_ws _ w hw]
    · rw [List.dropWhile_cons_of_neg hw]

/-- The runs of the trimmed line are the runs of the line. -/
theorem maximalRuns_trim (cs : List Char) : maximalRuns (trim cs) = maximalRuns cs := by
  unfold trim
  rw [maximalRuns_reverse_dropWhile, List.reverse_reverse, maximalRuns_dropWhile]

/-- The first character left by `dropWhile isWhiteSpace` is not white space. -/
theorem dropWhile_head_not_ws (cs : List Char) (c : Char)
    (h : (cs.dropWhile isWhiteSpace).head? = some c) : isWhiteSpace c = false := by
  have := List.head?_dropWhile_not isWhiteSpace cs
  rw [h] at this
  exact this

/-- A trimmed string does not end in white space. -/
theorem trim_getLast (cs : List Char) (c : Char) (h : (trim cs).getLast? = some c) :
    isWhiteSpace c = false := by
  unfold trim at h
  rw [List.getLast?_reverse] at h
  exact dropWhile_head_not_ws _ c h

/-- A trimmed string does not start with white space. -/
theorem trim_head (cs : List Char) (c : Char) (h : (trim cs).head? = some c) :
    isWhiteSpace c = false := by
  have hp : trim cs <+: cs.dropWhile isWhiteSpace := by
    unfold trim
    have := List.dropWhile_suffix isWhiteSpace (l := (cs.dropWhile isWhiteSpace).reverse)
    have h2 := List.reverse_prefix.mpr this
    rwa [List.reverse_reverse] at h2
  obtain ⟨t, ht⟩ := hp
  apply dropWhile_head_not_ws cs c
  rw [← ht]
  cases htr : trim cs with
  | nil => rw [htr] at h; simp at h
  | cons a l => rw [htr] at h; simpa using h

/-- The trimmed line is empty exactly when the line is blank. -/
theorem trim_eq_nil_iff (cs : List Char) : trim cs = [] ↔ cs.all isWhiteSpace = true := by
  unfold trim
  rw [List.reverse_eq_nil_iff, List.dropWhile_eq_nil_iff]
  constructor
  · intro h
    have hd : cs.dropWhile isWhiteSpace = [] := by
      cases hdw : cs.dropWhile isWhiteSpace with
      | nil => rfl
      | cons a l =>
        have h1 : isWhiteSpace a = false := dropWhile_head_not_ws cs a (by rw [hdw]; rfl)
        have h2 : isWhiteSpace a = true := h a (by rw [hdw]; simp)
        rw [h1] at h2
        exact absurd h2 (by simp)
    rw [List.all_eq_true]
    exact List.dropWhile_eq_nil_iff.mp hd
  · intro h x hx
    rw [List.all_eq_true] at h
    have hd : cs.dropWhile isWhiteSpace = [] := List.dropWhile_eq_nil_iff.mpr h
    rw [hd] at hx
    simp at hx

/-- Every maximal run is non-empty and has no white space in it. -/
theorem maximalRuns_mem (cs : List Char) (r : List Char) (h : r ∈ maximalRuns cs) :
    r ≠ [] ∧ ∀ c ∈ r, isWhiteSpace c = false := by
  induction cs generalizing r with
  | nil => simp [maximalRuns] at h
  | cons c cs ih =>
    by_cases hc : isWhiteSpace c = true
    · rw [maximalRuns_ws c cs hc] at h
      exact ih r h
    · have hc2 : isWhiteSpace c = false := by simpa using hc
      cases cs with
      | nil =>
        rw [maximalRuns_single c hc2] at h
        simp only [List.mem_singleton] at h
        subst h
        exact ⟨by simp, by simp [hc2]⟩
      | cons d t =>
        by_cases hd : isWhiteSpace d = true
        · rw [maximalRuns_cons_ws c d t hc2 hd] at h
          rcases List.mem_cons.mp h with h | h
          · subst h
            exact ⟨by simp, by simp [hc2]⟩
          · exact ih r h
        · have hd2 : isWhiteSpace d = false := by simpa using hd
          rw [maximalRuns_cons_cons c d t hc2 hd2] at h
          cases hm : maximalRuns (d :: t) with
          | nil =>
            rw [hm] at h
            simp only [List.mem_singleton] at h
            subst h
            exact ⟨by simp, by simp [hc2]⟩
          | cons p ps =>
            rw [hm] at h ih
            rcases List.mem_cons.mp h with h | h
            · subst h
              have hp := ih p (List.mem_cons_self _ _)
              refine ⟨by simp, ?_⟩
              intro x hx
              rcases List.mem_cons.mp hx with hx | hx
              · rw [hx]; exact hc2
              · exact hp.2 x hx
            · exact ih r (List.mem_cons_of_mem _ h)

/-- The concatenation of the maximal runs is the line without its white space. -/
theorem maximalRuns_join (cs : List Char) :
    (maximalRuns cs).flatten = cs.filter fun c => !isWhiteSpace c := by
  induction cs with
  | nil => rfl
  | cons c cs ih =>
    by_cases hc : isWhiteSpace c = true
    · rw [maximalRuns_ws c cs hc, ih]
      simp [hc]
    · have hc2 : isWhiteSpace c = false := by simpa using hc
      cases cs with
      | nil => rw [maximalRuns_single c hc2]; simp [hc2]
      | cons d t =>
        by_cases hd : isWhiteSpace d = true
        · rw [maximalRuns_cons_ws c d t hc2 hd, List.flatten_cons, ih]
          simp [hc2]
        · have hd2 : isWhiteSpace d = false := by simpa using hd
          rw [maximalRuns_cons_cons c d t hc2 hd2]
          cases hm : maximalRuns (d :: t) with
          | nil =>
            rw [hm] at ih
            simp only [List.flatten_nil] at ih
            simp [hc2, ← ih]
          | cons p ps =>
            rw [hm] at ih
            simp only [List.flatten_cons] at ih ⊢
            rw [List.filter_cons_of_pos (by simp [hc2]), ← ih]
            simp

/-- The tokens of a line that is not blank are its maximal runs. -/
theorem tokens_of_not_blank (line : String) (h : isBlank line = false) :
    tokens line = (maximalRuns line.data).map String.mk := by
  have hne : trim line.data ≠ [] := by
    intro ht
    have := (trim_eq_nil_iff line.data).mp ht
    simp only [isBlank] at h
    rw [this] at h
    exact absurd h (by simp)
  obtain ⟨c, cs, hcs⟩ := List.exists_cons_of_ne_nil hne
  have hlast : ∀ d, (c :: cs).getLast? = some d → isWhiteSpace d = false := by
    intro d hd
    rw [← hcs] at hd
    exact trim_getLast _ d hd
  have hhead : isWhiteSpace c = false := trim_head line.data c (by rw [hcs]; rfl)
  have := (splitGo_maximalRuns c cs hlast).2
  rw [if_neg (by simp [hhead])] at this
  simp only [tokens, split]
  rw [hcs, this, ← hcs, maximalRuns_trim]

/-- The tokens of a blank line are the single empty string. -/
theorem tokens_of_blank (line : String) (h : isBlank line = true) : tokens line = [""] := by
  have ht : trim line.data = [] := (trim_eq_nil_iff line.data).mpr h
  simp only [tokens, split, ht]
  rfl

/-- A key is bound exactly when it is among the keys. -/
theorem SymbolTable.has_iff_mem_keys (m : SymbolTable) (k : StackValue) :
    m.has k = true ↔ k ∈ m.keys := by
  induction m with
  | nil => simp [SymbolTable.has, SymbolTable.get, SymbolTable.keys]
  | cons kv m ih =>
    obtain ⟨k1, v1⟩ := kv
    by_cases h : k1 = k
    · simp [SymbolTable.has, SymbolTable.get, SymbolTable.keys, h]
    · have ih2 : (SymbolTable.get m k).isSome = true ↔ k ∈ List.map Prod.fst m := ih
      simp [SymbolTable.has, SymbolTable.get, SymbolTable.keys, h, ih2, Ne.symm h]

/-- `set` keeps the keys in place when the key is bound and appends the key when it is
new. -/
theorem SymbolTable.keys_set (m : SymbolTable) (k : StackValue) (v : ℚ) :
    (m.set k v).keys = if m.has k = true then m.keys else m.keys ++ [k] := by
  induction m with
  | nil => simp [SymbolTable.set, SymbolTable.has, SymbolTable.get, SymbolTable.keys]
  | cons kv m ih =>
    obtain ⟨k1, v1⟩ := kv
    by_cases h : k1 = k
    · simp [SymbolTable.set, SymbolTable.has, SymbolTable.get, SymbolTable.keys, h]
    · have e1 : SymbolTable.has ((k1, v1) :: m) k = SymbolTable.has m k := by
        simp [SymbolTable.has, SymbolTable.get, h]
      have e2 : (SymbolTable.set ((k1, v1) :: m) k v).keys = k1 :: (SymbolTable.set m k v).keys := by
        simp [SymbolTable.set, SymbolTable.keys, h]
      rw [e1, e2, ih]
      by_cases hh : SymbolTable.has m k = true
      · simp [hh, SymbolTable.keys]
      · simp [hh, SymbolTable.keys]

/-- The keys stay pairwise different under `set`. -/
theorem SymbolTable.keys_nodup_set (m : SymbolTable) (k : StackValue) (v : ℚ)
    (h : m.keys.Nodup) : (m.set k v).keys.Nodup := by
  rw [SymbolTable.keys_set]
  by_cases hh : m.has k = true
  · rw [if_pos hh]; exact h
  · rw [if_neg hh]
    have hk : k ∉ m.keys := fun hm => hh ((SymbolTable.has_iff_mem_keys m k).mpr hm)
    exact List.Nodup.append h (by simp) (by simpa using hk)

/-- With pairwise different keys, the entries of the table are exactly the pairs that `get`
returns. -/
theorem SymbolTable.mem_iff_get (m : SymbolTable) (k : StackValue) (v : ℚ)
    (h : m.keys.Nodup) : (k, v) ∈ m ↔ m.get k = some v := by
  induction m with
  | nil => simp [SymbolTable.get]
  | cons kv m ih =>
    obtain ⟨k1, v1⟩ := kv
    have hnd : (SymbolTable.keys m).Nodup ∧ k1 ∉ SymbolTable.keys m := by
      simp only [SymbolTable.keys, List.map_cons, List.nodup_cons] at h
      exact ⟨h.2, h.1⟩
    by_cases hk : k1 = k
    · subst hk
      have hno : ∀ w, (k1, w) ∉ m := by
        intro w hw
        exact hnd.2 (List.mem_map_of_mem Prod.fst hw)
      simp [SymbolTable.get, hno, eq_comm]
    · simp [SymbolTable.get, hk, Ne.symm hk, ih hnd.1]

/-- With pairwise different keys there is one entry for each bound key and none for any
other key. -/
theorem SymbolTable.count_key (m : SymbolTable) (k : StackValue) (h : m.keys.Nodup) :
    m.keys.count k = if m.has k = true then 1 else 0 := by
  by_cases hh : m.has k = true
  · rw [if_pos hh]
    exact List.count_eq_one_of_mem h ((SymbolTable.has_iff_mem_keys m k).mp hh)
  · rw [if_neg hh]
    exact List.count_eq_zero_of_not_mem
      (fun hm => hh ((SymbolTable.has_iff_mem_keys m k).mpr hm))

/-- The command tokens are neither numbers nor variables. -/
theorem not_first_branch_cmd (tok : String)
    (h : tok = "PRINT" ∨ tok = "CLEAR" ∨ tok = "SHOWVARS" ∨ tok = "DUP" ∨ tok = "SWAP" ∨
      tok = "DROP") :
    (isNumeric (.text tok) || isVariable (.text tok)) = false := by
  rcases h with h | h | h | h | h | h <;> subst h <;> with_unfolding_all decide

/-- A stack with fewer than two entries, read from the top, is empty or has one entry. -/
theorem reverse_of_length_lt_two (l : List StackValue) (h : l.length < 2) :
    l.reverse = [] ∨ ∃ x, l.reverse = [x] := by
  cases hr : l.reverse with
  | nil => exact Or.inl rfl
  | cons x r =>
    cases r with
    | nil => exact Or.inr ⟨x, rfl⟩
    | cons y r =>
      have := congrArg List.length hr
      simp at this
      omega

/-- The depth guard of the arithmetic branch. -/
theorem execToken_arith_short (st : Interp) (tok : String)
    (hop : tok = "+" ∨ tok = "-" ∨ tok = "*" ∨ tok = "/") (h : st.stack.length < 2) :
    execToken st tok = .thrown (.needsTwoOperands tok) st := by
  have hnf := not_first_branch_op tok (by tauto)
  have hne : tok ≠ "=" := by rcases hop with h | h | h | h <;> subst h <;> decide
  unfold execToken
  rw [hnf]
  simp only [Bool.false_eq_true, if_false, hne]
  simp only [Bool.or_eq_true, decide_eq_true_eq]
  rw [if_pos (by tauto)]
  rcases reverse_of_length_lt_two _ h with hr | ⟨x, hr⟩ <;> rw [hr]

/-- The depth guard of the assignment branch. -/
theorem execToken_assign_short (st : Interp) (h : st.stack.length < 2) :
    execToken st "=" = .thrown .assignmentNeeds st := by
  unfold execToken
  rw [not_first_branch_op "=" (by simp)]
  rcases reverse_of_length_lt_two _ h with hr | ⟨x, hr⟩ <;> simp [hr]

/-- The depth guard of `SWAP`. -/
theorem execToken_swap_short (st : Interp) (h : st.stack.length < 2) :
    execToken st "SWAP" = .thrown .needTwoToSwap st := by
  unfold execToken
  rw [not_first_branch_cmd "SWAP" (by simp)]
  rcases reverse_of_length_lt_two _ h with hr | ⟨x, hr⟩ <;> simp [hr]

/-- `SWAP` on a stack of at least two entries. -/
theorem execToken_swap (st : Interp) (s : List StackValue) (x y : StackValue)
    (hs : st.stack = s ++ [x, y]) :
    execToken st "SWAP" = .done { st with stack := s ++ [y, x] } := by
  have hrev : st.stack.reverse = y :: x :: s.reverse := by simp [hs]
  unfold execToken
  rw [not_first_branch_cmd "SWAP" (by simp)]
  simp [hrev]

/-- `DUP` on a non-empty stack. -/
theorem execToken_dup (st : Interp) (s : List StackValue) (x : StackValue)
    (hs : st.stack = s ++ [x]) :
    execToken st "DUP" = .done { st with stack := s ++ [x, x] } := by
  unfold execToken
  rw [not_first_branch_cmd "DUP" (by simp)]
  simp [hs]

/-- `DROP` on a non-empty stack. -/
theorem execToken_drop (st : Interp) (s : List StackValue) (x : StackValue)
    (hs : st.stack = s ++ [x]) :
    execToken st "DROP" = .done { st with stack := s } := by
  unfold execToken
  rw [not_first_branch_cmd "DROP" (by simp)]
  simp [hs]

/-- `PRINT` on a non-empty stack. -/
theorem execToken_print (st : Interp) (s : List StackValue) (x : StackValue)
    (hs : st.stack = s ++ [x]) :
    execToken st "PRINT" = .done { st with console := st.console ++ [.value x] } := by
  unfold execToken
  rw [not_first_branch_cmd "PRINT" (by simp)]
  simp [hs]

/-- `PRINT`, `DUP` and `DROP` on the empty stack. -/
theorem execToken_empty_stack (st : Interp) (hs : st.stack = []) :
    execToken st "PRINT" = .thrown .stackEmpty st ∧
    execToken st "DUP" = .thrown .stackEmpty st ∧
    execToken st "DROP" = .thrown .stackEmpty st := by
  refine ⟨?_, ?_, ?_⟩
  · unfold execToken
    rw [not_first_branch_cmd "PRINT" (by simp)]
    simp [hs]
  · unfold execToken
    rw [not_first_branch_cmd "DUP" (by simp)]
    simp [hs]
  · unfold execToken
    rw [not_first_branch_cmd "DROP" (by simp)]
    simp [hs]

/-- `CLEAR` in any state. -/
theorem execToken_clear (st : Interp) :
    execToken st "CLEAR" = .done { st with stack := [] } := by
  unfold execToken
  rw [not_first_branch_cmd "CLEAR" (by simp)]
  simp

/-- `SHOWVARS` in any state. -/
theorem execToken_showvars (st : Interp) :
    execToken st "SHOWVARS" =
      .done { st with console := st.console ++ showVarsOutput st.symbolTable } := by
  unfold execToken showVarsOutput
  rw [not_first_branch_cmd "SHOWVARS" (by simp)]
  by_cases h : st.symbolTable.length = 0
  · simp [h]
  · simp [h]

/-- The outcome of `=` in each of its cases. -/
theorem execToken_assign_all_cases (st : Interp) :
    (st.stack.length < 2 ∧ execToken st "=" = .thrown .assignmentNeeds st) ∨
    (∃ s v t, st.stack = s ++ [v, t] ∧
      ((isVariable v = false ∧ execToken st "=" = .thrown .lhsMustBeAZ { st with stack := s }) ∨
       (∃ e, isVariable v = true ∧ resolve st.symbolTable t = .error e ∧
          execToken st "=" = .thrown e { st with stack := s }) ∨
       (∃ n, isVariable v = true ∧ resolve st.symbolTable t = .ok n ∧
          execToken st "=" =
            .done { st with stack := [], symbolTable := st.symbolTable.set v n }))) := by
  have hnf := not_first_branch_op "=" (by simp)
  cases hrev : st.stack.reverse with
  | nil =>
    left
    have : st.stack = [] := by simpa using hrev
    refine ⟨by simp [this], ?_⟩
    unfold execToken
    rw [hnf]
    simp [hrev]
  | cons t r =>
    cases r with
    | nil =>
      left
      have : st.stack = [t] := by
        have := congrArg List.reverse hrev
        simpa using this
      refine ⟨by simp [this], ?_⟩
      unfold execToken
      rw [hnf]
      simp [hrev]
    | cons v r =>
      right
      have hs := reverse_eq_cons_cons _ _ _ _ hrev
      refine ⟨r.reverse, v, t, hs, ?_⟩
      cases hv : isVariable v with
      | false => exact Or.inl ⟨rfl, execToken_assign_lhs st r.reverse v t hs hv⟩
      | true =>
        cases ht : resolve st.symbolTable t with
        | error e =>
          right; left
          refine ⟨e, rfl, rfl, ?_⟩
          unfold execToken
          rw [hnf]
          simp [hrev, hv, ht]
        | ok n =>
          right; right
          exact ⟨n, rfl, rfl, execToken_assign st _ v t n hs hv ht⟩

/-- The errors of `resolve` are of the kinds `UndefinedVariable` and `InvalidToken`. -/
theorem resolve_error_kind (m : SymbolTable) (t : StackValue) (e : EvalError)
    (h : resolve m t = .error e) : e = .undefinedVariable t ∨ e = .invalidToken t := by
  unfold resolve at h
  split at h
  · split at h <;> simp at h
  · split at h
    · split at h
      · simp at h; exact Or.inl h.symm
      · simp at h
    · simp at h; exact Or.inr h.symm

/-- A stack is empty or has a top entry. -/
theorem stack_nil_or_concat (l : List StackValue) : l = [] ∨ ∃ s x, l = s ++ [x] := by
  rcases List.eq_nil_or_concat l with h | ⟨s, x, h⟩
  · exact Or.inl h
  · exact Or.inr ⟨s, x, by rw [h, List.concat_eq_append]⟩

/-- A stack has fewer than two entries or has two entries on top. -/
theorem stack_short_or_two (l : List StackValue) :
    l.length < 2 ∨ ∃ s x y, l = s ++ [x, y] := by
  cases hr : l.reverse with
  | nil => left; have : l = [] := by simpa using hr
           simp [this]
  | cons y r =>
    cases r with
    | nil =>
      left
      have : l = [y] := by
        have := congrArg List.reverse hr
        simpa using this
      simp [this]
    | cons x r => exact Or.inr ⟨r.reverse, x, y, reverse_eq_cons_cons _ _ _ _ hr⟩

/-- The result of `roundHalfEven` is within one half of `num / den`. -/
theorem roundHalfEven_nearest (num den : Nat) (hd : 0 < den) :
    2 * (roundHalfEven num den * den) ≤ 2 * num + den ∧
    2 * num ≤ 2 * (roundHalfEven num den * den) + den := by
  have hdm := Nat.div_add_mod num den
  have hlt := Nat.mod_lt num hd
  unfold roundHalfEven
  simp only
  generalize hq : num / den = q at hdm
  generalize hr : num % den = r at hdm hlt
  have hx : den * q = q * den := Nat.mul_comm _ _
  split
  · constructor <;> nlinarith
  · split
    · have : (q + 1) * den = q * den + den := by ring
      rw [this]
      constructor <;> omega
    · split
      · constructor <;> omega
      · have : (q + 1) * den = q * den + den := by ring
        rw [this]
        constructor <;> omega

/-- When `num / den` lies halfway between two integers, the even one is taken. -/
theorem roundHalfEven_tie (num den : Nat) (h : 2 * (num % den) = den) :
    roundHalfEven num den % 2 = 0 := by
  unfold roundHalfEven
  simp only
  rw [if_neg (by omega), if_neg (by omega)]
  split
  · assumption
  · omega

set_option maxRecDepth 10000 in
/-- Values of `roundToDouble`: small integers and dyadic fractions are kept; `1/10` becomes
the double `0x1.999999999999ap-4`; an odd integer above `2^53` goes to its even neighbour,
by ties to even; the largest double is kept and the midpoint above it overflows; the
smallest subnormal is kept, half of it underflows to `0`, and three halves of it go to twice
it. -/
theorem roundToDouble_examples :
    roundToDouble 7 = .finite 7 ∧
    roundToDouble (mkRat (-5) 2) = .finite (mkRat (-5) 2) ∧
    roundToDouble (mkRat 1 10) = .finite (mkRat 3602879701896397 36028797018963968) ∧
    roundToDouble 9007199254740993 = .finite 9007199254740992 ∧
    roundToDouble 9007199254740995 = .finite 9007199254740996 ∧
    roundToDouble (mkRat (((1 <<< 53) - 1) <<< 971 : ℕ) 1) =
      .finite (mkRat (((1 <<< 53) - 1) <<< 971 : ℕ) 1) ∧
    roundToDouble (mkRat (((1 <<< 54) - 1) <<< 970 : ℕ) 1) = .infinity false ∧
    roundToDouble (mkRat (-(((1 <<< 54) - 1) <<< 970 : ℕ)) 1) = .infinity true ∧
    roundToDouble (mkRat 1 (1 <<< 1074)) = .finite (mkRat 1 (1 <<< 1074)) ∧
    roundToDouble (mkRat 1 (1 <<< 1075)) = .finite 0 ∧
    roundToDouble (mkRat 3 (1 <<< 1075)) = .finite (mkRat 1 (1 <<< 1073)) := by
  refine ⟨by decide, by decide, by decide, by decide, by decide, by decide, by decide,
    by decide, by decide, by decide, by decide⟩

/-- Rounding never gives `NaN`. -/
theorem roundToDouble_not_nan (q : ℚ) : (roundToDouble q).isNaN = false := by
  unfold roundToDouble roundFraction
  split
  · rfl
  · simp only
    split <;> rfl

/-- The result of an arithmetic operator is never `NaN`: the only `NaN` entry of the object
literal is `0 / 0`, which the guard on the divisor excludes. -/
theorem applyOp_not_nan (tok : String) (a b : ℚ) (h : ¬ (tok = "/" ∧ b = 0))
    (hop : tok = "+" ∨ tok = "-" ∨ tok = "*" ∨ tok = "/") :
    (applyOp tok a b).isNaN = false := by
  unfold applyOp
  split
  · exact roundToDouble_not_nan _
  · split
    · exact roundToDouble_not_nan _
    · split
      · exact roundToDouble_not_nan _
      · have ht : tok = "/" := by tauto
        have hb : b ≠ 0 := fun hb => h ⟨ht, hb⟩
        rw [if_neg hb]
        exact roundToDouble_not_nan _

/-- The outcome of an arithmetic operator in each of its cases. -/
theorem execToken_arith_cases (st : Interp) (tok : String)
    (hop : tok = "+" ∨ tok = "-" ∨ tok = "*" ∨ tok = "/") :
    (st.stack.length < 2 ∧ execToken st tok = .thrown (.needsTwoOperands tok) st) ∨
    (∃ s x y, st.stack = s ++ [x, y] ∧
      ((∃ e, resolve st.symbolTable y = .error e ∧
          execToken st tok = .thrown e { st with stack := s ++ [x] }) ∨
       (∃ b e, resolve st.symbolTable y = .ok b ∧ resolve st.symbolTable x = .error e ∧
          execToken st tok = .thrown e { st with stack := s }) ∨
       (∃ a, tok = "/" ∧ resolve st.symbolTable y = .ok 0 ∧ resolve st.symbolTable x = .ok a ∧
          execToken st tok = .thrown .divisionByZero { st with stack := s }) ∨
       (∃ a b, ¬ (tok = "/" ∧ b = 0) ∧ resolve st.symbolTable y = .ok b ∧
          resolve st.symbolTable x = .ok a ∧
          execToken st tok = .done { st with stack := s ++ [.num (applyOp tok a b)] }))) := by
  rcases stack_short_or_two st.stack with hlen | ⟨s, x, y, hs⟩
  · exact Or.inl ⟨hlen, execToken_arith_short st tok hop hlen⟩
  · right
    refine ⟨s, x, y, hs, ?_⟩
    have hrev : st.stack.reverse = y :: x :: s.reverse := by simp [hs]
    have hnf := not_first_branch_op tok (by tauto)
    have hne : tok ≠ "=" := by rcases hop with h | h | h | h <;> subst h <;> decide
    have hbranch : execToken st tok =
        match resolve st.symbolTable y with
        | .error e => .thrown e { st with stack := s ++ [x] }
        | .ok b =>
          match resolve st.symbolTable x with
          | .error e => .thrown e { st with stack := s }
          | .ok a =>
            if tok = "/" ∧ b = 0 then .thrown .divisionByZero { st with stack := s }
            else .done { st with stack := s ++ [.num (applyOp tok a b)] } := by
      unfold execToken
      rw [hnf]
      simp only [Bool.false_eq_true, if_false, hne, hrev]
      simp only [Bool.or_eq_true, decide_eq_true_eq]
      rw [if_pos (by tauto)]
      simp
    cases hy : resolve st.symbolTable y with
    | error e =>
      left
      exact ⟨e, rfl, by rw [hbranch, hy]⟩
    | ok b =>
      cases hx : resolve st.symbolTable x with
      | error e =>
        right; left
        exact ⟨b, e, rfl, rfl, by rw [hbranch, hy, hx]⟩
      | ok a =>
        by_cases hz : tok = "/" ∧ b = 0
        · right; right; left
          obtain ⟨h1, h2⟩ := hz
          subst h2
          exact ⟨a, h1, rfl, rfl, by rw [hbranch, hy, hx]; simp [h1]⟩
        · right; right; right
          exact ⟨a, b, hz, rfl, rfl, by rw [hbranch, hy, hx]; simp only [if_neg hz]⟩

/-- The last branch of the loop: a token that passes none of the tests. -/
theorem execToken_unknown (st : Interp) (tok : String)
    (h1 : (isNumeric (.text tok) || isVariable (.text tok)) = false)
    (h2 : tok ≠ "=") (h3 : ¬ (tok = "+" ∨ tok = "-" ∨ tok = "*" ∨ tok = "/"))
    (h4 : ¬ (tok = "PRINT" ∨ tok = "CLEAR" ∨ tok = "SHOWVARS" ∨ tok = "DUP" ∨ tok = "SWAP" ∨
      tok = "DROP")) :
    execToken st tok = .thrown (.unknownToken tok) st := by
  simp only [not_or] at h3 h4
  obtain ⟨a1, a2, a3, a4⟩ := h3
  obtain ⟨a6, a7, a8, a9, a10, a11⟩ := h4
  unfold execToken
  rw [h1]
  simp [h2, a1, a2, a3, a4, a6, a7, a8, a9, a10, a11]

/-- Where the entries of the stack after a token come from: the stack before, the token
itself when it is a number or a variable, or an arithmetic result. -/
theorem execToken_stack_mem (st : Interp) (tok : String) (v : StackValue)
    (hv : v ∈ (execToken st tok).state.stack) :
    v ∈ st.stack ∨
    (v = .text tok ∧ (isNumeric (.text tok) || isVariable (.text tok)) = true) ∨
    ∃ x, v = .num x ∧ x.isNaN = false := by
  by_cases h1 : (isNumeric (.text tok) || isVariable (.text tok)) = true
  · rw [execToken_push st tok h1] at hv
    simp only [Outcome.state, List.mem_append, List.mem_singleton] at hv
    rcases hv with hv | hv
    · exact Or.inl hv
    · exact Or.inr (Or.inl ⟨hv, h1⟩)
  have h1f : (isNumeric (.text tok) || isVariable (.text tok)) = false := by simpa using h1
  by_cases h2 : tok = "="
  · subst h2
    rcases execToken_assign_all_cases st with ⟨_, he⟩ | ⟨s, x, y, hs, hc⟩
    · rw [he] at hv; exact Or.inl hv
    · rcases hc with ⟨_, he⟩ | ⟨e, _, _, he⟩ | ⟨n, _, _, he⟩ <;> rw [he] at hv <;>
        simp only [Outcome.state] at hv
      · exact Or.inl (by rw [hs]; simp [hv])
      · exact Or.inl (by rw [hs]; simp [hv])
      · simp at hv
  by_cases h3 : tok = "+" ∨ tok = "-" ∨ tok = "*" ∨ tok = "/"
  · rcases execToken_arith_cases st tok h3 with ⟨_, he⟩ | ⟨s, x, y, hs, hc⟩
    · rw [he] at hv; exact Or.inl hv
    · rcases hc with ⟨e, _, he⟩ | ⟨b, e, _, _, he⟩ | ⟨a, _, _, _, he⟩ | ⟨a, b, hz, _, _, he⟩ <;>
        rw [he] at hv <;> simp only [Outcome.state] at hv
      · exact Or.inl (by
          rw [hs]
          simp only [List.mem_append, List.mem_singleton] at hv
          rcases hv with hv | hv <;> simp [hv])
      · exact Or.inl (by rw [hs]; simp [hv])
      · exact Or.inl (by rw [hs]; simp [hv])
      · simp only [List.mem_append, List.mem_singleton] at hv
        rcases hv with hv | hv
        · exact Or.inl (by rw [hs]; simp [hv])
        · exact Or.inr (Or.inr ⟨_, hv, applyOp_not_nan tok a b hz h3⟩)
  by_cases h4 : tok = "PRINT" ∨ tok = "CLEAR" ∨ tok = "SHOWVARS" ∨ tok = "DUP" ∨
      tok = "SWAP" ∨ tok = "DROP"
  · rcases h4 with h | h | h | h | h | h <;> subst h
    · rcases stack_nil_or_concat st.stack with hs | ⟨s, x, hs⟩
      · rw [(execToken_empty_stack st hs).1] at hv; exact Or.inl hv
      · rw [execToken_print st s x hs] at hv; exact Or.inl hv
    · rw [execToken_clear] at hv
      simp [Outcome.state] at hv
    · rw [execToken_showvars] at hv; exact Or.inl hv
    · rcases stack_nil_or_concat st.stack with hs | ⟨s, x, hs⟩
      · rw [(execToken_empty_stack st hs).2.1] at hv; exact Or.inl hv
      · rw [execToken_dup st s x hs] at hv
        simp only [Outcome.state, List.mem_append, List.mem_cons, List.mem_singleton,
          List.not_mem_nil, or_false, or_self] at hv
        exact Or.inl (by rw [hs]; rcases hv with hv | hv <;> simp [hv])
    · rcases stack_short_or_two st.stack with hs | ⟨s, x, y, hs⟩
      · rw [execToken_swap_short st hs] at hv; exact Or.inl hv
      · rw [execToken_swap st s x y hs] at hv
        simp only [Outcome.state, List.mem_append, List.mem_cons, List.mem_singleton,
          List.not_mem_nil, or_false] at hv
        exact Or.inl (by rw [hs]; rcases hv with hv | hv | hv <;> simp [hv])
    · rcases stack_nil_or_concat st.stack with hs | ⟨s, x, hs⟩
      · rw [(execToken_empty_stack st hs).2.2] at hv; exact Or.inl hv
      · rw [execToken_drop st s x hs] at hv
        exact Or.inl (by rw [hs]; simp only [Outcome.state] at hv; simp [hv])
  · rw [execToken_unknown st tok h1f h2 h3 h4] at hv
    exact Or.inl hv

/-- Where the error of a token comes from: `resolve` on an entry of the stack, or one of
the `throw` statements of the loop. -/
theorem execToken_error_cases (st : Interp) (tok : String) (e : EvalError)
    (he : (execToken st tok).error = some e) :
    (∃ v ∈ st.stack, resolve st.symbolTable v = .error e) ∨
    e = .assignmentNeeds ∨ e = .lhsMustBeAZ ∨ e = .needsTwoOperands tok ∨
    e = .divisionByZero ∨ e = .stackEmpty ∨ e = .needTwoToSwap ∨ e = .unknownToken tok := by
  by_cases h1 : (isNumeric (.text tok) || isVariable (.text tok)) = true
  · rw [execToken_push st tok h1] at he
    simp [Outcome.error] at he
  have h1f : (isNumeric (.text tok) || isVariable (.text tok)) = false := by simpa using h1
  by_cases h2 : tok = "="
  · subst h2
    rcases execToken_assign_all_cases st with ⟨_, h⟩ | ⟨s, x, y, hs, hc⟩
    · rw [h] at he; simp only [Outcome.error, Option.some.injEq] at he
      exact Or.inr (Or.inl he.symm)
    · rcases hc with ⟨_, h⟩ | ⟨e1, _, hr, h⟩ | ⟨n, _, _, h⟩ <;> rw [h] at he <;>
        simp only [Outcome.error, Option.some.injEq] at he
      · exact Or.inr (Or.inr (Or.inl he.symm))
      · subst he
        exact Or.inl ⟨y, by rw [hs]; simp, hr⟩
      · simp at he
  by_cases h3 : tok = "+" ∨ tok = "-" ∨ tok = "*" ∨ tok = "/"
  · rcases execToken_arith_cases st tok h3 with ⟨_, h⟩ | ⟨s, x, y, hs, hc⟩
    · rw [h] at he; simp only [Outcome.error, Option.some.injEq] at he
      exact Or.inr (Or.inr (Or.inr (Or.inl he.symm)))
    · rcases hc with ⟨e1, hr, h⟩ | ⟨b, e1, _, hr, h⟩ | ⟨a, _, _, _, h⟩ | ⟨a, b, _, _, _, h⟩ <;>
        rw [h] at he <;> simp only [Outcome.error, Option.some.injEq] at he
      · subst he
        exact Or.inl ⟨y, by rw [hs]; simp, hr⟩
      · subst he
        exact Or.inl ⟨x, by rw [hs]; simp, hr⟩
      · exact Or.inr (Or.inr (Or.inr (Or.inr (Or.inl he.symm))))
      · simp at he
  by_cases h4 : tok = "PRINT" ∨ tok = "CLEAR" ∨ tok = "SHOWVARS" ∨ tok = "DUP" ∨
      tok = "SWAP" ∨ tok = "DROP"
  · rcases h4 with h | h | h | h | h | h <;> subst h
    · rcases stack_nil_or_concat st.stack with hs | ⟨s, x, hs⟩
      · rw [(execToken_empty_stack st hs).1] at he
        simp only [Outcome.error, Option.some.injEq] at he
        simp [← he]
      · rw [execToken_print st s x hs] at he; simp [Outcome.error] at he
    · rw [execToken_clear] at he; simp [Outcome.error] at he
    · rw [execToken_showvars] at he; simp [Outcome.error] at he
    · rcases stack_nil_or_concat st.stack with hs | ⟨s, x, hs⟩
      · rw [(execToken_empty_stack st hs).2.1] at he
        simp only [Outcome.error, Option.some.injEq] at he
        simp [← he]
      · rw [execToken_dup st s x hs] at he; simp [Outcome.error] at he
    · rcases stack_short_or_two st.stack with hs | ⟨s, x, y, hs⟩
      · rw [execToken_swap_short st hs] at he
        simp only [Outcome.error, Option.some.injEq] at he
        simp [← he]
      · rw [execToken_swap st s x y hs] at he; simp [Outcome.error] at he
    · rcases stack_nil_or_concat st.stack with hs | ⟨s, x, hs⟩
      · rw [(execToken_empty_stack st hs).2.2] at he
        simp only [Outcome.error, Option.some.injEq] at he
        simp [← he]
      · rw [execToken_drop st s x hs] at he; simp [Outcome.error] at he
  · rw [execToken_unknown st tok h1f h2 h3 h4] at he
    simp only [Outcome.error, Option.some.injEq] at he
    simp [← he]

/-- The stack is well formed when each entry passes `isNumeric` or `isVariable`. -/
theorem wellFormedStack_iff (stack : List StackValue) :
    wellFormedStack stack = true ↔ ∀ v ∈ stack, (isNumeric v || isVariable v) = true := by
  simp [wellFormedStack, List.all_eq_true]

/-- The stack is pushable when each of its entries is. -/
theorem pushableStack_iff (stack : List StackValue) :
    pushableStack stack = true ↔ ∀ v ∈ stack, pushable v = true := by
  simp [pushableStack, List.all_eq_true]

/-- A token keeps the stack pushable. -/
theorem execToken_pushable (st : Interp) (tok : String)
    (h : pushableStack st.stack = true) :
    pushableStack (execToken st tok).state.stack = true := by
  rw [pushableStack_iff] at h ⊢
  intro v hv
  rcases execToken_stack_mem st tok v hv with h1 | ⟨h1, h2⟩ | ⟨x, h1, h2⟩
  · exact h v h1
  · rw [h1]; exact h2
  · rw [h1]; simp [pushable, h2]

/-- A sequence of tokens keeps the stack pushable. -/
theorem evalTokens_pushable (st : Interp) (toks : List String)
    (h : pushableStack st.stack = true) :
    pushableStack (evalTokens st toks).state.stack = true := by
  induction toks generalizing st with
  | nil => exact h
  | cons t toks ih =>
    have h1 := execToken_pushable st t h
    simp only [evalTokens]
    cases he : execToken st t with
    | done st1 => rw [he] at h1; exact ih st1 h1
    | thrown e st1 => rw [he] at h1; exact h1

/-- The line handler keeps the stack pushable. -/
theorem handleLine_pushable (st st1 : Interp) (line : String)
    (h : pushableStack st.stack = true) (h1 : handleLine st line = some st1) :
    pushableStack st1.stack = true := by
  have hw := evalTokens_pushable st (tokens line) h
  unfold handleLine at h1
  split at h1
  · simp at h1
  · change pushableStack (evaluate st line).state.stack = true at hw
    cases he : evaluate st line with
    | done st2 =>
      rw [he] at h1 hw
      simp only [Option.some.injEq] at h1
      subst h1
      exact hw
    | thrown e st2 =>
      rw [he] at h1
      simp only [Option.some.injEq] at h1
      subst h1
      rfl

/-- Every reachable state has a pushable stack. -/
theorem Reachable.pushable (st : Interp) (h : Reachable st) :
    pushableStack st.stack = true := by
  induction h with
  | start st h => rw [h]; rfl
  | evaluate st line _ ih => exact evalTokens_pushable st (tokens line) ih
  | handleLine st st1 line _ h1 ih => exact handleLine_pushable st st1 line ih h1

/-- On a pushable entry `resolve` can fail only because the variable is not defined, or
because the entry is an infinite number. -/
theorem resolve_error_of_pushable (m : SymbolTable) (v : StackValue) (e : EvalError)
    (hv : pushable v = true) (h : resolve m v = .error e) :
    e = .undefinedVariable v ∨ ∃ neg, v = .num (.infinity neg) ∧ e = .invalidToken v := by
  rcases resolve_error_kind m v e h with h1 | h1
  · exact Or.inl h1
  · right
    cases v with
    | num x =>
      cases x with
      | nan => simp [pushable, JSNumber.isNaN] at hv
      | infinity neg => exact ⟨neg, rfl, h1⟩
      | finite q => simp [resolve, isNumeric, JSNumber.isNaN, JSNumber.isFinite, parseFloatOf] at h
    | text t =>
      exfalso
      unfold resolve at h
      simp only [pushable, Bool.or_eq_true] at hv
      rcases hv with hv | hv
      · rw [if_pos hv] at h
        split at h <;> simp at h
      · by_cases hn : isNumeric (.text t) = true
        · rw [if_pos hn] at h
          split at h <;> simp at h
        · rw [if_neg hn, if_pos hv] at h
          split at h
          · simp only [Except.error.injEq] at h
            rw [h1] at h
            simp at h
          · simp at h

/-- From a pushable stack a token throws `Invalid token` only for an infinite number that is
on the stack. -/
theorem execToken_invalidToken (st : Interp) (tok : String) (t : StackValue)
    (h : pushableStack st.stack = true)
    (he : (execToken st tok).error = some (.invalidToken t)) :
    t ∈ st.stack ∧ ∃ neg, t = .num (.infinity neg) := by
  rw [pushableStack_iff] at h
  rcases execToken_error_cases st tok _ he with ⟨v, hv, hr⟩ | h1 | h1 | h1 | h1 | h1 | h1 | h1
  · rcases resolve_error_of_pushable _ v _ (h v hv) hr with h2 | ⟨neg, h2, h3⟩
    · simp at h2
    · simp only [EvalError.invalidToken.injEq] at h3
      rw [h3]
      exact ⟨hv, neg, h2⟩
  all_goals simp at h1

/-- From a pushable stack a sequence of tokens throws `Invalid token` only for an infinite
number. -/
theorem evalTokens_invalidToken (st : Interp) (toks : List String) (t : StackValue)
    (h : pushableStack st.stack = true)
    (he : (evalTokens st toks).error = some (.invalidToken t)) :
    ∃ neg, t = .num (.infinity neg) := by
  induction toks generalizing st with
  | nil => simp [evalTokens, Outcome.error] at he
  | cons tok toks ih =>
    have h1 := execToken_pushable st tok h
    simp only [evalTokens] at he
    cases hx : execToken st tok with
    | done st1 =>
      rw [hx] at h1 he
      exact ih st1 h1 he
    | thrown e st1 =>
      rw [hx] at he
      exact (execToken_invalidToken st tok t h (by rw [hx]; exact he)).2

/-- A token keeps the keys of the symbol table pairwise different. -/
theorem execToken_keys_nodup (st : Interp) (tok : String) (h : st.symbolTable.keys.Nodup) :
    (execToken st tok).state.symbolTable.keys.Nodup := by
  by_cases ht : tok = "="
  · subst ht
    rcases execToken_assign_cases st with ⟨h1, _⟩ | ⟨s, v, t, n, _, _, _, he⟩
    · rw [h1]; exact h
    · rw [he]; exact SymbolTable.keys_nodup_set _ _ _ h
  · rw [execToken_symbolTable_of_ne st tok ht]; exact h

/-- A sequence of tokens keeps the keys of the symbol table pairwise different. -/
theorem evalTokens_keys_nodup (st : Interp) (toks : List String)
    (h : st.symbolTable.keys.Nodup) : (evalTokens st toks).state.symbolTable.keys.Nodup := by
  induction toks generalizing st with
  | nil => exact h
  | cons t toks ih =>
    have h1 := execToken_keys_nodup st t h
    simp only [evalTokens]
    cases he : execToken st t with
    | done st1 => rw [he] at h1; exact ih st1 h1
    | thrown e st1 => rw [he] at h1; exact h1

/-- With pairwise different keys, `SHOWVARS` writes the line of a pair once when the pair
is what `get` returns, and not at all otherwise. -/
theorem showVars_count (m : SymbolTable) (k : StackValue) (v : ℚ) (h : m.keys.Nodup) :
    (m.map fun kv => Output.binding kv.1 kv.2).count (.binding k v) =
      if m.get k = some v then 1 else 0 := by
  induction m with
  | nil => simp [SymbolTable.get]
  | cons kv m ih =>
    obtain ⟨k1, v1⟩ := kv
    have hnd : (SymbolTable.keys m).Nodup ∧ k1 ∉ SymbolTable.keys m := by
      simp only [SymbolTable.keys, List.map_cons, List.nodup_cons] at h
      exact ⟨h.2, h.1⟩
    rw [List.map_cons, List.count_cons]
    by_cases hk : k1 = k
    · subst hk
      have hno : (m.map fun kv => Output.binding kv.1 kv.2).count (.binding k1 v) = 0 := by
        apply List.count_eq_zero_of_not_mem
        intro hm
        obtain ⟨p, hp, hpe⟩ := List.mem_map.mp hm
        simp only [Output.binding.injEq] at hpe
        exact hnd.2 (by rw [← hpe.1]; exact List.mem_map_of_mem Prod.fst hp)
      rw [hno]
      by_cases hv : v1 = v
      · simp [SymbolTable.get, hv]
      · simp [SymbolTable.get, hv]
    · rw [ih hnd.1]
      simp [SymbolTable.get, hk]

/-- A sequence of `evaluate` calls keeps the keys of the symbol table pairwise different. -/
theorem evaluateAll_keys_nodup (st : Interp) (lines : List String)
    (h : st.symbolTable.keys.Nodup) : (evaluateAll st lines).symbolTable.keys.Nodup := by
  induction lines generalizing st with
  | nil => exact h
  | cons l lines ih => exact ih _ (evalTokens_keys_nodup st (tokens l) h)

/-- The line handler keeps the keys of the symbol table pairwise different. -/
theorem runLines_keys_nodup (st : Interp) (lines : List String)
    (h : st.symbolTable.keys.Nodup) : (runLines st lines).symbolTable.keys.Nodup := by
  induction lines generalizing st with
  | nil => exact h
  | cons l lines ih =>
    simp only [runLines]
    cases hh : handleLine st l with
    | none => exact h
    | some st1 =>
      apply ih st1
      rw [handleLine_symbolTable st st1 l hh]
      exact evalTokens_keys_nodup st (tokens l) h

/-- A token that `isNumeric` accepts and that is not a binary, octal or hexadecimal literal
is read to the same number by `parseFloat` and by the coercion `Number(...)`. -/
theorem parseFloat_eq_toNumber (t : String) (h : isNumeric (.text t) = true)
    (hd : scanNonDecimal (t.data.dropWhile isWhiteSpace) = none) :
    parseFloat t = toNumber t := by
  simp only [isNumeric, Bool.and_eq_true, Bool.not_eq_true'] at h
  obtain ⟨h1, h2⟩ := h
  unfold parseFloat at h1 ⊢
  unfold toNumber at h2 ⊢
  generalize t.data.dropWhile isWhiteSpace = L at h1 h2 hd
  cases hL : L with
  | nil => subst hL; simp [scanDecimal_nil, JSNumber.isNaN] at h1
  | cons c cs =>
    rw [hL] at h2
    simp only at h2 ⊢
    rw [← hL] at h2 ⊢
    rw [hd] at h2 ⊢
    simp only at h2 ⊢
    cases hs : scanDecimal L with
    | none => rfl
    | some vr =>
      obtain ⟨v, rest⟩ := vr
      rw [hs] at h2
      simp only at h2 ⊢
      split at h2
      · rename_i hw
        rw [if_pos hw]
      · simp [JSNumber.isFinite] at h2

/-! ## The claims -/

/-- Claim C1: on a stack `s ++ [x, y]` whose two top entries resolve to `a` (deeper) and `b`
(top), each of `+`, `-`, `*`, and `/` when `b` is not `0`, succeeds, changes nothing but the
stack, and leaves the stack `s ++ [a OP b]`, where `a OP b` is the operation of doubles (the
exact result rounded to the nearest double, an infinity on overflow), stored as a number;
and `evaluate("3 4 +")` from an empty stack leaves the stack `[7]`. -/
theorem arithmetic_pushes_result (st : Interp) (s : List StackValue) (x y : StackValue)
    (a b : ℚ) (hs : st.stack = s ++ [x, y])
    (hx : resolve st.symbolTable x = .ok a) (hy : resolve st.symbolTable y = .ok b) :
    execToken st "+" = .done { st with stack := s ++ [.num (roundToDouble (a + b))] } ∧
    execToken st "-" = .done { st with stack := s ++ [.num (roundToDouble (a - b))] } ∧
    execToken st "*" = .done { st with stack := s ++ [.num (roundToDouble (a * b))] } ∧
    (b ≠ 0 →
      execToken st "/" = .done { st with stack := s ++ [.num (roundToDouble (a / b))] }) ∧
    (∀ st0 : Interp, st0.stack = [] →
      evaluate st0 "3 4 +" = .done { st0 with stack := [.num (.finite 7)] }) := by
  refine ⟨?_, ?_, ?_, ?_, ?_⟩
  · simpa [applyOp] using execToken_arith st s x y a b "+" (by simp) hs hx hy (by simp)
  · simpa [applyOp] using execToken_arith st s x y a b "-" (by simp) hs hx hy (by simp)
  · simpa [applyOp] using execToken_arith st s x y a b "*" (by simp) hs hx hy (by simp)
  · intro hb
    simpa [applyOp, hb] using
      execToken_arith st s x y a b "/" (by simp) hs hx hy (by simp [hb])
  · intro st0 h0
    obtain ⟨stack, m, c⟩ := st0
    simp only at h0
    subst h0
    have h7 : roundToDouble ((3 : ℚ) + 4) = .finite 7 := by with_unfolding_all decide
    rw [← h7]
    rfl

set_option maxRecDepth 10000 in
/-- Claim C1 on examples.  On `[2, 10, 4]`, `-` leaves `[2, 6]` and `/` leaves `[2, 2.5]`.
On `[0.1, 0.2]`, where the entries resolve to the doubles nearest to `1/10` and `2/10`, `+`
leaves the double `0.30000000000000004`, not `3/10`.  On `[1e308, 10]`, `*` overflows and
leaves `Infinity`.  The line `3 4 +` on a fresh interpreter leaves `[7]`. -/
theorem arithmetic_pushes_result_witness :
    execToken ⟨[.text "2", .text "10", .text "4"], [], []⟩ "-" =
      .done ⟨[.text "2", .num (roundToDouble (10 - 4))], [], []⟩ ∧
    roundToDouble ((10 : ℚ) - 4) = .finite 6 ∧
    execToken ⟨[.text "2", .text "10", .text "4"], [], []⟩ "/" =
      .done ⟨[.text "2", .num (roundToDouble (10 / 4))], [], []⟩ ∧
    roundToDouble ((10 : ℚ) / 4) = .finite (mkRat 5 2) ∧
    execToken ⟨[.text "0.1", .text "0.2"], [], []⟩ "+" =
      .done ⟨[.num (roundToDouble (mkRat 3602879701896397 36028797018963968 +
        mkRat 3602879701896397 18014398509481984))], [], []⟩ ∧
    roundToDouble (mkRat 3602879701896397 36028797018963968 +
        mkRat 3602879701896397 18014398509481984) =
      .finite (mkRat 1351079888211149 4503599627370496) ∧
    execToken ⟨[.text "1e308", .text "10"], [], []⟩ "*" =
      .done ⟨[.num (.infinity false)], [], []⟩ ∧
    evaluate fresh "3 4 +" = .done ⟨[.num (.finite 7)], [], []⟩ :=
  ⟨(arithmetic_pushes_result ⟨[.text "2", .text "10", .text "4"], [], []⟩ [.text "2"]
      (.text "10") (.text "4") 10 4 rfl (by with_unfolding_all rfl)
      (by with_unfolding_all rfl)).2.1,
   by with_unfolding_all decide,
   (arithmetic_pushes_result ⟨[.text "2", .text "10", .text "4"], [], []⟩ [.text "2"]
      (.text "10") (.text "4") 10 4 rfl (by with_unfolding_all rfl)
      (by with_unfolding_all rfl)).2.2.2.1 (by norm_num),
   by with_unfolding_all decide,
   (arithmetic_pushes_result ⟨[.text "0.1", .text "0.2"], [], []⟩ []
      (.text "0.1") (.text "0.2") (mkRat 3602879701896397 36028797018963968)
      (mkRat 3602879701896397 18014398509481984) rfl (by rfl) (by rfl)).1,
   by
    rw [show (mkRat 3602879701896397 36028797018963968 +
        mkRat 3602879701896397 18014398509481984 : ℚ) =
        mkRat 10808639105689191 36028797018963968 by
      rw [Rat.mkRat_add_mkRat _ _ (by norm_num) (by norm_num)]; norm_num]
    decide,
   by with_unfolding_all decide,
   (arithmetic_pushes_result ⟨[.text "2", .text "10", .text "4"], [], []⟩ [.text "2"]
      (.text "10") (.text "4") 10 4 rfl (by with_unfolding_all rfl)
      (by with_unfolding_all rfl)).2.2.2.2 fresh rfl⟩

/-- Claim C2: on a stack `s ++ [v, t]` with `v` a variable token (one capital letter) and
`t` resolving to `n`, the token `=` succeeds, empties the whole stack, binds `v` to `n` and
leaves the binding of every other key as it was. -/
theorem assignment_binds_and_clears (st : Interp) (s : List StackValue) (v t : StackValue)
    (n : ℚ) (hs : st.stack = s ++ [v, t]) (hv : isVariable v = true)
    (ht : resolve st.symbolTable t = .ok n) :
    execToken st "=" = .done { st with stack := [], symbolTable := st.symbolTable.set v n } ∧
    (st.symbolTable.set v n).get v = some n ∧
    (∀ k, k ≠ v → (st.symbolTable.set v n).get k = st.symbolTable.get k) ∧
    (∃ c : Char, v = .text (String.mk [c]) ∧ 65 ≤ c.toNat ∧ c.toNat ≤ 90) := by
  refine ⟨execToken_assign st s v t n hs hv ht, SymbolTable.get_set_self _ _ _,
    fun k hk => SymbolTable.get_set_other _ _ _ _ hk, ?_⟩
  cases v with
  | num q => simp [isVariable] at hv
  | text w =>
    obtain ⟨c, hc, h1, h2⟩ := isVariable_text w hv
    exact ⟨c, by rw [hc], h1, h2⟩

/-- Claim C2 at the stack `[7, A, 5]` with `B = 1` bound: `=` empties the stack (the `7`
goes too) and the table becomes `B = 1, A = 5`. -/
theorem assignment_binds_and_clears_witness :
    execToken ⟨[.text "7", .text "A", .text "5"], [(.text "B", 1)], []⟩ "=" =
      .done ⟨[], SymbolTable.set [(.text "B", 1)] (.text "A") 5, []⟩ ∧
    SymbolTable.set [(.text "B", 1)] (.text "A") 5 = [(.text "B", 1), (.text "A", 5)] :=
  ⟨(assignment_binds_and_clears ⟨[.text "7", .text "A", .text "5"], [(.text "B", 1)], []⟩
      [.text "7"] (.text "A") (.text "5") 5 rfl (by decide) (by with_unfolding_all rfl)).1,
   by with_unfolding_all decide⟩

/-- Claim C3 as stated fails: on a fresh interpreter the value-first line `5 A =` is
rejected by the test on the left-hand side and binds nothing. -/
theorem value_first_assignment_rejected :
    evaluate fresh "5 A =" = .thrown .lhsMustBeAZ fresh ∧
    (evaluate fresh "5 A =").state.symbolTable.get (.text "A") = none := by
  with_unfolding_all decide

/-- Claim C3, amended to the variable-first order: for every number token `N` written in
decimal (not a binary, octal or hexadecimal literal, which `parseFloat` and `Number` read
differently, claim C19) and every variable `V`, the line `V N =` on a fresh interpreter
succeeds and binds `V` to the value of `N`.  Reading `V` back gives exactly that value:
`resolve` returns it, and each of `+`, `-`, `*`, `/` with `V` as the deeper or as the top
operand, and any other operand resolving to `b`, pushes the result computed from that
value and `b`.  The line `V 1 +` then leaves the value plus one, and after `A 5 =` the line
`A 1 +` leaves the stack `[6]`.  The value-first line `N V =` is rejected with
`LHS must be A-Z.` and changes nothing. -/
theorem assignment_round_trip (N V : String) (hN : isNumeric (.text N) = true)
    (hNw : ∀ c ∈ N.data, isWhiteSpace c = false) (hNd : scanNonDecimal N.data = none)
    (hV : isVariable (.text V) = true) :
    ∃ q : ℚ, toNumber N = .finite q ∧
      evaluate fresh (V ++ " " ++ N ++ " =") =
        .done { fresh with symbolTable := [(.text V, q)] } ∧
      resolve [(.text V, q)] (.text V) = .ok q ∧
      (∀ (s : List StackValue) (y : StackValue) (b : ℚ) (c : List Output) (op : String),
        op ∈ ["+", "-", "*", "/"] → resolve [(.text V, q)] y = .ok b →
        (¬ (op = "/" ∧ b = 0) →
          execToken ⟨s ++ [.text V, y], [(.text V, q)], c⟩ op =
            .done ⟨s ++ [.num (applyOp op q b)], [(.text V, q)], c⟩) ∧
        (¬ (op = "/" ∧ q = 0) →
          execToken ⟨s ++ [y, .text V], [(.text V, q)], c⟩ op =
            .done ⟨s ++ [.num (applyOp op b q)], [(.text V, q)], c⟩)) ∧
      evaluate { fresh with symbolTable := [(.text V, q)] } (V ++ " 1 +") =
        .done { fresh with stack := [.num (roundToDouble (q + 1))],
                           symbolTable := [(.text V, q)] } ∧
      evaluate fresh (N ++ " " ++ V ++ " =") = .thrown .lhsMustBeAZ fresh ∧
      evaluate fresh "A 5 =" = .done { fresh with symbolTable := [(.text "A", 5)] } ∧
      evaluate { fresh with symbolTable := [(.text "A", 5)] } "A 1 +" =
        .done { fresh with stack := [.num (.finite 6)], symbolTable := [(.text "A", 5)] } := by
  obtain ⟨c, hc, h1, h2⟩ := isVariable_text V hV
  obtain ⟨hVn, hcw⟩ := isNumeric_capital c h1 h2
  rw [← hc] at hVn
  have hNne := isNumeric_data_ne_nil N hN
  obtain ⟨q, hq, hres⟩ := resolve_of_isNumeric [] (.text N) hN
  have hdrop : N.data.dropWhile isWhiteSpace = N.data := by
    cases hd : N.data with
    | nil => rfl
    | cons d ds =>
      have := hNw d (by rw [hd]; simp)
      simp [List.dropWhile, this]
  have hnum : toNumber N = .finite q := by
    rw [← parseFloat_eq_toNumber N hN (by rw [hdrop]; exact hNd)]
    exact hq
  have hNv : isVariable (.text N) = false := by
    cases h : isVariable (.text N) with
    | false => rfl
    | true =>
      obtain ⟨d, hd, hd1, hd2⟩ := isVariable_text N h
      have := (isNumeric_capital d hd1 hd2).1
      rw [← hd, hN] at this
      exact absurd this (by simp)
  have hVw : ∀ x ∈ V.data, isWhiteSpace x = false := by
    intro x hx; rw [hc] at hx; simp at hx; rw [hx]; exact hcw
  have hVne : V.data ≠ [] := by rw [hc]; simp
  have heq : ∀ x ∈ "=".data, isWhiteSpace x = false := by decide
  have hrV : resolve [(.text V, q)] (.text V) = .ok q := by
    simp [resolve, hVn, hV, SymbolTable.get]
  refine ⟨q, hnum, ?_, hrV, ?_, ?_, ?_, ?_, ?_⟩
  · have ht : tokens (V ++ " " ++ N ++ " =") = [V, N, "="] := by
      rw [tokens_joinWords _ V.data [N.data, "=".data]]
      · rfl
      · simp [joinWords, String.data_append]
      · intro x hx
        simp only [List.mem_cons, List.mem_singleton, List.not_mem_nil, or_false] at hx
        rcases hx with hx | hx | hx <;> subst hx
        · exact ⟨hVne, hVw⟩
        · exact ⟨hNne, hNw⟩
        · exact ⟨by decide, heq⟩
    simp only [evaluate, ht, evalTokens]
    rw [execToken_push _ V (by simp [hV])]
    simp only
    rw [execToken_push _ N (by simp [hN])]
    simp only
    rw [execToken_assign _ [] (.text V) (.text N) q rfl hV hres]
    simp [fresh, SymbolTable.set]
  · intro s y b c op hop hy
    have hop2 : op = "+" ∨ op = "-" ∨ op = "*" ∨ op = "/" := by
      simpa using hop
    exact ⟨fun hz => execToken_arith ⟨s ++ [.text V, y], [(.text V, q)], c⟩ s (.text V) y q b
        op hop2 rfl hrV hy hz,
      fun hz => execToken_arith ⟨s ++ [y, .text V], [(.text V, q)], c⟩ s y (.text V) b q
        op hop2 rfl hy hrV hz⟩
  · have ht : tokens (V ++ " 1 +") = [V, "1", "+"] := by
      rw [tokens_joinWords _ V.data ["1".data, "+".data]]
      · rfl
      · simp [joinWords, String.data_append]
      · intro x hx
        simp only [List.mem_cons, List.mem_singleton, List.not_mem_nil, or_false] at hx
        rcases hx with hx | hx | hx <;> subst hx
        · exact ⟨hVne, hVw⟩
        · exact ⟨by decide, by decide⟩
        · exact ⟨by decide, by decide⟩
    simp only [evaluate, ht, evalTokens]
    rw [execToken_push _ V (by simp [hV])]
    simp only
    rw [execToken_push _ "1" (by with_unfolding_all decide)]
    simp only
    rw [execToken_arith _ [] (.text V) (.text "1") q 1 "+" (by simp) rfl
      (by simpa [fresh] using hrV) (by with_unfolding_all rfl) (by simp)]
    simp [fresh, applyOp]
  · have ht : tokens (N ++ " " ++ V ++ " =") = [N, V, "="] := by
      rw [tokens_joinWords _ N.data [V.data, "=".data]]
      · rfl
      · simp [joinWords, String.data_append]
      · intro x hx
        simp only [List.mem_cons, List.mem_singleton, List.not_mem_nil, or_false] at hx
        rcases hx with hx | hx | hx <;> subst hx
        · exact ⟨hNne, hNw⟩
        · exact ⟨hVne, hVw⟩
        · exact ⟨by decide, heq⟩
    simp only [evaluate, ht, evalTokens]
    rw [execToken_push _ N (by simp [hN])]
    simp only
    rw [execToken_push _ V (by simp [hV])]
    simp only
    rw [execToken_assign_lhs _ [] (.text N) (.text V) rfl hNv]
    simp [fresh]
  · with_unfolding_all rfl
  · have h6 : roundToDouble ((5 : ℚ) + 1) = .finite 6 := by with_unfolding_all decide
    rw [← h6]
    rfl

/-- Claim C3, amended, at `N = 2.5` and `V = B`: the value of `2.5` is `5/2`; `B 2.5 =`
binds `B` to it; `resolve` reads it back; on the stack `[7, B, 4]` the token `/` leaves
`[7, 0.625]` and on `[4, B]` the token `-` leaves `[1.5]`; `B 1 +` leaves `[3.5]`; the
value-first `2.5 B =` is rejected. -/
theorem assignment_round_trip_witness :
    toNumber "2.5" = .finite (mkRat 5 2) ∧
    evaluate fresh "B 2.5 =" = .done ⟨[], [(.text "B", mkRat 5 2)], []⟩ ∧
    resolve [(.text "B", mkRat 5 2)] (.text "B") = .ok (mkRat 5 2) ∧
    execToken ⟨[.text "7", .text "B", .text "4"], [(.text "B", mkRat 5 2)], []⟩ "/" =
      .done ⟨[.text "7", .num (applyOp "/" (mkRat 5 2) 4)], [(.text "B", mkRat 5 2)], []⟩ ∧
    applyOp "/" (mkRat 5 2) 4 = .finite (mkRat 5 8) ∧
    execToken ⟨[.text "4", .text "B"], [(.text "B", mkRat 5 2)], []⟩ "-" =
      .done ⟨[.num (applyOp "-" 4 (mkRat 5 2))], [(.text "B", mkRat 5 2)], []⟩ ∧
    applyOp "-" 4 (mkRat 5 2) = .finite (mkRat 3 2) ∧
    evaluate ⟨[], [(.text "B", mkRat 5 2)], []⟩ "B 1 +" =
      .done ⟨[.num (roundToDouble (mkRat 5 2 + 1))], [(.text "B", mkRat 5 2)], []⟩ ∧
    roundToDouble (mkRat 5 2 + 1) = .finite (mkRat 7 2) ∧
    evaluate fresh "2.5 B =" = .thrown .lhsMustBeAZ fresh := by
  obtain ⟨q, hq, h1, h2, h3, h4, h5, _, _⟩ :=
    assignment_round_trip "2.5" "B" (by with_unfolding_all decide) (by decide) (by decide)
      (by decide)
  have hv : toNumber "2.5" = .finite (mkRat 5 2) := by with_unfolding_all decide
  rw [hv] at hq
  cases hq
  exact ⟨hv, h1, h2,
    (h3 [.text "7"] (.text "4") 4 [] "/" (by simp) (by with_unfolding_all rfl)).1
      (by norm_num),
    by with_unfolding_all decide,
    (h3 [] (.text "4") 4 [] "-" (by simp) (by with_unfolding_all rfl)).2 (by simp),
    by with_unfolding_all decide,
    h4, by with_unfolding_all decide, h5⟩

/-- Claim C4 as stated fails: with `A` unbound, `evaluate("A")` does not throw; it pushes
the text `A`. -/
theorem evaluate_unbound_variable_pushes :
    fresh.symbolTable.get (.text "A") = none ∧
    evaluate fresh "A" = .done { fresh with stack := [.text "A"] } := by
  with_unfolding_all decide

/-- Claim C4, amended: in every state `evaluate("A")` succeeds and pushes the text `A`,
unresolved, on top of the stack, changing nothing else; the missing binding is reported
only when the entry is resolved: with `A` unbound, `evaluate("A 1 +")` throws
`Variable A is not defined.`, both operands having been popped. -/
theorem evaluate_variable_pushes_text (st : Interp) :
    evaluate st "A" = .done { st with stack := st.stack ++ [.text "A"] } ∧
    (st.symbolTable.get (.text "A") = none →
      evaluate st "A 1 +" = .thrown (.undefinedVariable (.text "A")) st) := by
  have hA : isVariable (.text "A") = true := by decide
  have hAn : isNumeric (.text "A") = false := by with_unfolding_all decide
  refine ⟨?_, ?_⟩
  · have ht : tokens "A" = ["A"] := by decide
    simp only [evaluate, ht, evalTokens]
    rw [execToken_push _ "A" (by simp [hA])]
  · intro hget
    have ht : tokens "A 1 +" = ["A", "1", "+"] := by decide
    simp only [evaluate, ht, evalTokens]
    rw [execToken_push _ "A" (by simp [hA])]
    simp only
    rw [execToken_push _ "1" (by with_unfolding_all decide)]
    simp only
    have h1 : resolve st.symbolTable (.text "1") = .ok 1 := by with_unfolding_all rfl
    have h2 : resolve st.symbolTable (.text "A") = .error (.undefinedVariable (.text "A")) := by
      simp [resolve, hA, hAn, hget]
    unfold execToken
    rw [not_first_branch_op "+" (by simp)]
    simp [h1, h2]

/-- Claim C4, amended, on a fresh interpreter. -/
theorem evaluate_variable_pushes_text_witness :
    evaluate fresh "A" = .done { fresh with stack := [.text "A"] } ∧
    evaluate fresh "A 1 +" = .thrown (.undefinedVariable (.text "A")) fresh :=
  ⟨(evaluate_variable_pushes_text fresh).1, (evaluate_variable_pushes_text fresh).2 rfl⟩

/-- Claim C5: a token that `isNumeric` accepts never fails; it appends its own text, not
its value, on top of the stack and changes nothing else; and as a whole line, from an empty
stack, it leaves the stack holding just that text. -/
theorem number_token_pushes_text (st : Interp) (t : String)
    (ht : isNumeric (.text t) = true) :
    execToken st t = .done { st with stack := st.stack ++ [.text t] } ∧
    ((∀ c ∈ t.data, isWhiteSpace c = false) → st.stack = [] →
      evaluate st t = .done { st with stack := [.text t] }) := by
  have hp := execToken_push st t (by simp [ht])
  refine ⟨hp, ?_⟩
  intro hw hs
  have htok : tokens t = [t] := by
    rw [tokens_joinWords t t.data [] (by simp [joinWords])]
    · rfl
    · intro x hx
      simp only [List.mem_singleton] at hx
      subst hx
      exact ⟨isNumeric_data_ne_nil t ht, hw⟩
  simp only [evaluate, htok, evalTokens, hp, hs, List.nil_append]

/-- Claim C5 at the token `1.50`: the text is kept as written. -/
theorem number_token_pushes_text_witness :
    isNumeric (.text "1.50") = true ∧
    execToken ⟨[.num (.finite 2)], [], []⟩ "1.50" =
      .done ⟨[.num (.finite 2), .text "1.50"], [], []⟩ ∧
    evaluate fresh "1.50" = .done ⟨[.text "1.50"], [], []⟩ :=
  ⟨by with_unfolding_all decide,
   (number_token_pushes_text ⟨[.num (.finite 2)], [], []⟩ "1.50"
      (by with_unfolding_all decide)).1,
   (number_token_pushes_text fresh "1.50" (by with_unfolding_all decide)).2 (by decide) rfl⟩

/-- Claim C6: the token `/` throws `Division by zero.` exactly when the stack is some
`s ++ [x, y]` whose two top entries both resolve and `y` resolves to `0`; and when it is
thrown the state is the old one with the two top entries removed: nothing is pushed and the
symbol table is the same. -/
theorem division_by_zero_iff (st : Interp) :
    ((execToken st "/").error = some .divisionByZero ↔
      ∃ s x y a, st.stack = s ++ [x, y] ∧ resolve st.symbolTable x = .ok a ∧
        resolve st.symbolTable y = .ok 0) ∧
    ((execToken st "/").error = some .divisionByZero →
      (execToken st "/").state = { st with stack := st.stack.dropLast.dropLast }) := by
  have key : (execToken st "/").error = some .divisionByZero →
      ∃ s x y a, st.stack = s ++ [x, y] ∧ resolve st.symbolTable x = .ok a ∧
        resolve st.symbolTable y = .ok 0 ∧ (execToken st "/").state = { st with stack := s } := by
    intro h
    rcases execToken_div_cases st with ⟨_, he⟩ | ⟨s, x, y, hs, hc⟩
    · rw [he] at h; simp [Outcome.error] at h
    · rcases hc with ⟨e, hy, he⟩ | ⟨b, e, hy, hx, he⟩ | ⟨a, hy, hx, he⟩ | ⟨a, b, hb, hy, hx, he⟩
      · rw [he] at h; simp only [Outcome.error, Option.some.injEq] at h
        exact absurd h (resolve_error_ne_divisionByZero _ _ _ hy)
      · rw [he] at h; simp only [Outcome.error, Option.some.injEq] at h
        exact absurd h (resolve_error_ne_divisionByZero _ _ _ hx)
      · exact ⟨s, x, y, a, hs, hx, hy, by rw [he]; rfl⟩
      · rw [he] at h; simp [Outcome.error] at h
  refine ⟨⟨fun h => ?_, fun h => ?_⟩, fun h => ?_⟩
  · obtain ⟨s, x, y, a, hs, hx, hy, _⟩ := key h
    exact ⟨s, x, y, a, hs, hx, hy⟩
  · obtain ⟨s, x, y, a, hs, hx, hy⟩ := h
    have hrev : st.stack.reverse = y :: x :: s.reverse := by simp [hs]
    unfold execToken
    rw [not_first_branch_op "/" (by simp)]
    simp [hrev, hx, hy, Outcome.error]
  · obtain ⟨s, x, y, a, hs, hx, hy, hst⟩ := key h
    rw [hst, hs]
    have : (s ++ [x, y]).dropLast.dropLast = s := by
      rw [show s ++ [x, y] = (s ++ [x]) ++ [y] by simp]
      rw [List.dropLast_concat, List.dropLast_concat]
    rw [this]

/-- Claim C6 at the stack `[7, 10, 0]`: `/` throws `Division by zero.` and leaves `[7]`. -/
theorem division_by_zero_iff_witness :
    (execToken ⟨[.text "7", .text "10", .text "0"], [], []⟩ "/").error =
      some .divisionByZero ∧
    (execToken ⟨[.text "7", .text "10", .text "0"], [], []⟩ "/").state =
      ⟨[.text "7"], [], []⟩ :=
  have h := (division_by_zero_iff ⟨[.text "7", .text "10", .text "0"], [], []⟩).1.mpr
    ⟨[.text "7"], .text "10", .text "0", 10, rfl, by with_unfolding_all rfl,
      by with_unfolding_all rfl⟩
  ⟨h, (division_by_zero_iff ⟨[.text "7", .text "10", .text "0"], [], []⟩).2 h⟩

/-- Claim C7: a token that is neither a number, nor a single capital letter, nor one of
`+ - * / =`, nor one of the six commands, throws `Unknown token:` naming it and leaves the
stack, the symbol table and the console as they were; the same holds for it as a line. -/
theorem unknown_token_fails (st : Interp) (tok : String)
    (h1 : isNumeric (.text tok) = false) (h2 : isVariable (.text tok) = false)
    (h3 : tok ∉ ["+", "-", "*", "/", "=", "PRINT", "CLEAR", "SHOWVARS", "DUP", "SWAP", "DROP"]) :
    execToken st tok = .thrown (.unknownToken tok) st ∧
    (tok.data ≠ [] → (∀ c ∈ tok.data, isWhiteSpace c = false) →
      evaluate st tok = .thrown (.unknownToken tok) st) := by
  simp only [List.mem_cons, List.mem_singleton, List.not_mem_nil, or_false, not_or] at h3
  obtain ⟨a1, a2, a3, a4, a5, a6, a7, a8, a9, a10, a11⟩ := h3
  have he : execToken st tok = .thrown (.unknownToken tok) st := by
    unfold execToken
    simp [h1, h2, a1, a2, a3, a4, a5, a6, a7, a8, a9, a10, a11]
  refine ⟨he, fun hne hw => ?_⟩
  have htok : tokens tok = [tok] := by
    rw [tokens_joinWords tok tok.data [] (by simp [joinWords])]
    · rfl
    · intro x hx
      simp only [List.mem_singleton] at hx
      subst hx
      exact ⟨hne, hw⟩
  simp only [evaluate, htok, evalTokens, he]

/-- Claim C7 at the token `FOO`, on the stack `[1]` with `A = 2` bound. -/
theorem unknown_token_fails_witness :
    execToken ⟨[.text "1"], [(.text "A", 2)], []⟩ "FOO" =
      .thrown (.unknownToken "FOO") ⟨[.text "1"], [(.text "A", 2)], []⟩ ∧
    evaluate ⟨[.text "1"], [(.text "A", 2)], []⟩ "FOO" =
      .thrown (.unknownToken "FOO") ⟨[.text "1"], [(.text "A", 2)], []⟩ :=
  ⟨(unknown_token_fails _ "FOO" (by with_unfolding_all decide) (by decide) (by decide)).1,
   (unknown_token_fails _ "FOO" (by with_unfolding_all decide) (by decide) (by decide)).2
     (by decide) (by decide)⟩

/-- Claim C8: `evaluate` runs the tokens of the line from left to right and stops at the
first `throw`: a sequence `p ++ r` is `p` followed, only when `p` ended normally, by `r`
from the state `p` ended in; when `p` throws, `p ++ r` ends with the same error in the same
state; and when the token after `p` throws, the state is the one that `p` built and that
token left. -/
theorem evaluation_is_left_fold (st : Interp) (p r : List String) :
    (∀ line, evaluate st line = evalTokens st (tokens line)) ∧
    evalTokens st (p ++ r) =
      (match evalTokens st p with
      | .done st1 => evalTokens st1 r
      | .thrown e st1 => .thrown e st1) ∧
    (∀ e st1, evalTokens st p = .thrown e st1 → evalTokens st (p ++ r) = .thrown e st1) ∧
    (∀ t st1 e st2, evalTokens st p = .done st1 → execToken st1 t = .thrown e st2 →
      evalTokens st (p ++ t :: r) = .thrown e st2) := by
  refine ⟨fun _ => rfl, evalTokens_append st p r, ?_, ?_⟩
  · intro e st1 h
    rw [evalTokens_append, h]
  · intro t st1 e st2 h1 h2
    rw [evalTokens_append, h1]
    simp [evalTokens, h2]

/-- Claim C8 on `A 5 = B 1 +` followed by `7 C =`, and on `A 5 =`, `FOO`, `B 1 =`: the
error is the first one, the binding `A = 5` made before it stays, and no later token
runs. -/
theorem evaluation_is_left_fold_witness :
    evalTokens fresh (["A", "5", "=", "B", "1", "+"] ++ ["7", "C", "="]) =
      .thrown (.undefinedVariable (.text "B")) ⟨[], [(.text "A", 5)], []⟩ ∧
    evalTokens fresh (["A", "5", "="] ++ "FOO" :: ["B", "1", "="]) =
      .thrown (.unknownToken "FOO") ⟨[], [(.text "A", 5)], []⟩ :=
  ⟨(evaluation_is_left_fold fresh ["A", "5", "=", "B", "1", "+"] ["7", "C", "="]).2.2.1 _ _
      (by with_unfolding_all decide),
   (evaluation_is_left_fold fresh ["A", "5", "="] ["B", "1", "="]).2.2.2 "FOO"
      ⟨[], [(.text "A", 5)], []⟩ _ _ (by with_unfolding_all decide)
      (by with_unfolding_all decide)⟩

/-- Claim C9: a token other than `=` leaves the symbol table as it was, and so does every
token that throws; a successful `=` gives the table with the assigned variable set, equal
to the old one at every other key; hence a key that is bound stays bound after any token,
after any sequence of `evaluate` calls, and after any sequence of lines given to the line
handler. -/
theorem symbolTable_changed_only_by_assignment (st : Interp) (tok : String) :
    (tok ≠ "=" → (execToken st tok).state.symbolTable = st.symbolTable) ∧
    (∀ e st1, execToken st tok = .thrown e st1 → st1.symbolTable = st.symbolTable) ∧
    (∀ st1, execToken st "=" = .done st1 →
      ∃ s v t n, st.stack = s ++ [v, t] ∧ isVariable v = true ∧
        st1.symbolTable = st.symbolTable.set v n ∧
        ∀ k, k ≠ v → st1.symbolTable.get k = st.symbolTable.get k) ∧
    (∀ k, st.symbolTable.has k = true → (execToken st tok).state.symbolTable.has k = true) ∧
    (∀ lines k, st.symbolTable.has k = true → (evaluateAll st lines).symbolTable.has k = true) ∧
    (∀ lines k, st.symbolTable.has k = true → (runLines st lines).symbolTable.has k = true) := by
  refine ⟨execToken_symbolTable_of_ne st tok, ?_, ?_, execToken_has st tok, ?_, ?_⟩
  · intro e st1 h
    by_cases ht : tok = "="
    · subst ht
      rcases execToken_assign_cases st with ⟨h1, _⟩ | ⟨s, v, t, n, _, _, _, he⟩
      · rw [h] at h1; exact h1
      · rw [he] at h; simp at h
    · have := execToken_symbolTable_of_ne st tok ht
      rw [h] at this; exact this
  · intro st1 h
    rcases execToken_assign_cases st with ⟨_, h2⟩ | ⟨s, v, t, n, hs, hv, _, he⟩
    · rw [h] at h2; simp [Outcome.error] at h2
    · rw [he] at h
      simp only [Outcome.done.injEq] at h
      subst h
      exact ⟨s, v, t, n, hs, hv, rfl, fun k hk => SymbolTable.get_set_other _ _ _ _ hk⟩
  · intro lines
    induction lines generalizing st with
    | nil => intro k h; exact h
    | cons l lines ih =>
      intro k h
      exact ih (evaluate st l).state k (evalTokens_has st (tokens l) k h)
  · intro lines
    induction lines generalizing st with
    | nil => intro k h; exact h
    | cons l lines ih =>
      intro k h
      simp only [runLines]
      cases hh : handleLine st l with
      | none => exact h
      | some st1 =>
        apply ih st1 k
        rw [handleLine_symbolTable st st1 l hh]
        exact evalTokens_has st (tokens l) k h

/-- Claim C9 with `B = 1` bound: `DROP` and a failing `+` leave the table alone, and `B` is
still bound after the lines `B 2 =`, `FOO`, `A B =`, with or without the line handler. -/
theorem symbolTable_changed_only_by_assignment_witness :
    (execToken ⟨[.text "A", .text "5"], [(.text "B", 1)], []⟩ "DROP").state.symbolTable =
      [(.text "B", 1)] ∧
    (execToken ⟨[.text "A", .text "5"], [(.text "B", 1)], []⟩ "+").state.symbolTable =
      [(.text "B", 1)] ∧
    (evaluateAll ⟨[], [(.text "B", 1)], []⟩ ["B 2 =", "FOO", "A B ="]).symbolTable.has
      (.text "B") = true ∧
    (runLines ⟨[], [(.text "B", 1)], []⟩ ["B 2 =", "FOO", "A B ="]).symbolTable.has
      (.text "B") = true :=
  ⟨(symbolTable_changed_only_by_assignment
      ⟨[.text "A", .text "5"], [(.text "B", 1)], []⟩ "DROP").1 (by decide),
   (symbolTable_changed_only_by_assignment
      ⟨[.text "A", .text "5"], [(.text "B", 1)], []⟩ "+").2.1
      (.undefinedVariable (.text "A")) ⟨[], [(.text "B", 1)], []⟩
      (by with_unfolding_all decide),
   (symbolTable_changed_only_by_assignment ⟨[], [(.text "B", 1)], []⟩ "").2.2.2.2.1
      ["B 2 =", "FOO", "A B ="] (.text "B") (by decide),
   (symbolTable_changed_only_by_assignment ⟨[], [(.text "B", 1)], []⟩ "").2.2.2.2.2
      ["B 2 =", "FOO", "A B ="] (.text "B") (by decide)⟩

/-- Claim C10: for a line that is not the exit command, when `evaluate` throws the line
handler leaves the stack empty and the symbol table as `evaluate` left it at the `throw`
(reporting the error); when `evaluate` ends normally the handler only prints the stack and
changes neither stack nor symbol table. -/
theorem harness_resets_stack_on_error (st : Interp) (line : String)
    (hx : isExit line = false) :
    (∀ e st1, evaluate st line = .thrown e st1 →
      handleLine st line =
        some { st1 with stack := [], console := st1.console ++ [.errorLine e] }) ∧
    (∀ st1, evaluate st line = .done st1 →
      handleLine st line = some { st1 with console := st1.console ++ [.stackLine st1.stack] }) ∧
    (∃ st2, handleLine st line = some st2 ∧
      st2.symbolTable = (evaluate st line).state.symbolTable ∧
      ((evaluate st line).error ≠ none → st2.stack = []) ∧
      ((evaluate st line).error = none → st2.stack = (evaluate st line).state.stack)) := by
  refine ⟨?_, ?_, ?_⟩
  · intro e st1 h
    simp [handleLine, hx, h]
  · intro st1 h
    simp [handleLine, hx, h]
  · cases h : evaluate st line with
    | done st1 =>
      exact ⟨{ st1 with console := st1.console ++ [.stackLine st1.stack] },
        by simp [handleLine, hx, h], rfl, by simp [Outcome.error], fun _ => rfl⟩
    | thrown e st1 =>
      exact ⟨{ st1 with stack := [], console := st1.console ++ [.errorLine e] },
        by simp [handleLine, hx, h], rfl, fun _ => rfl, by simp [Outcome.error]⟩

/-- Claim C10 on the stack `[9]` with `B = 1` bound: the line `A 5 = 7 C +` fails at `+`
with `7` still on the stack; the handler empties the stack and keeps `B = 1` and the new `A = 5`; the line `2 3` succeeds
and the handler leaves the stack `[9, 2, 3]`. -/
theorem harness_resets_stack_on_error_witness :
    handleLine ⟨[.text "9"], [(.text "B", 1)], []⟩ "A 5 = 7 C +" =
      some ⟨[], [(.text "B", 1), (.text "A", 5)],
        [.errorLine (.undefinedVariable (.text "C"))]⟩ ∧
    handleLine ⟨[.text "9"], [(.text "B", 1)], []⟩ "2 3" =
      some ⟨[.text "9", .text "2", .text "3"], [(.text "B", 1)],
        [.stackLine [.text "9", .text "2", .text "3"]]⟩ :=
  ⟨(harness_resets_stack_on_error ⟨[.text "9"], [(.text "B", 1)], []⟩ "A 5 = 7 C +"
      (by decide)).1 (.undefinedVariable (.text "C"))
      ⟨[.text "7"], [(.text "B", 1), (.text "A", 5)], []⟩
      (by with_unfolding_all decide),
   (harness_resets_stack_on_error ⟨[.text "9"], [(.text "B", 1)], []⟩ "2 3"
      (by decide)).2.1 ⟨[.text "9", .text "2", .text "3"], [(.text "B", 1)], []⟩
      (by with_unfolding_all decide)⟩

/-- Claim C11: the token `=` throws `LHS must be A-Z.` (the only error of kind
InvalidAssignmentTarget) exactly when the stack is some `s ++ [v, t]` whose second entry
from the top `v` is not a variable token; the test comes before the value is resolved, so
it is thrown whatever the top entry `t` is; and the state at the throw is the old one with
the two top entries removed, the symbol table being the same. -/
theorem invalid_assignment_target_iff (st : Interp) :
    ((execToken st "=").error = some .lhsMustBeAZ ↔
      ∃ s v t, st.stack = s ++ [v, t] ∧ isVariable v = false) ∧
    ((execToken st "=").error.map EvalError.kind = some .InvalidAssignmentTarget ↔
      (execToken st "=").error = some .lhsMustBeAZ) ∧
    (∀ s v t, st.stack = s ++ [v, t] → isVariable v = false →
      execToken st "=" = .thrown .lhsMustBeAZ { st with stack := s }) ∧
    ((execToken st "=").error = some .lhsMustBeAZ →
      (execToken st "=").state = { st with stack := st.stack.dropLast.dropLast }) := by
  have hdrop : ∀ s v t, st.stack = s ++ [v, t] → st.stack.dropLast.dropLast = s := by
    intro s v t hs
    rw [hs, show s ++ [v, t] = (s ++ [v]) ++ [t] by simp, List.dropLast_concat,
      List.dropLast_concat]
  have hcases := execToken_assign_all_cases st
  refine ⟨⟨?_, ?_⟩, ⟨?_, ?_⟩, ?_, ?_⟩
  · intro h
    rcases hcases with ⟨_, he⟩ | ⟨s, v, t, hs, hc⟩
    · rw [he] at h; simp [Outcome.error] at h
    · rcases hc with ⟨hv, _⟩ | ⟨e, _, hr, he⟩ | ⟨n, _, _, he⟩
      · exact ⟨s, v, t, hs, hv⟩
      · rw [he] at h
        simp only [Outcome.error, Option.some.injEq] at h
        rcases resolve_error_kind _ _ _ hr with h2 | h2 <;> rw [h2] at h <;> simp at h
      · rw [he] at h; simp [Outcome.error] at h
  · rintro ⟨s, v, t, hs, hv⟩
    rw [execToken_assign_lhs st s v t hs hv]
    rfl
  · intro h
    rcases hcases with ⟨_, he⟩ | ⟨s, v, t, hs, hc⟩
    · rw [he] at h; simp [Outcome.error, EvalError.kind] at h
    · rcases hc with ⟨_, he⟩ | ⟨e, _, hr, he⟩ | ⟨n, _, _, he⟩
      · rw [he]; rfl
      · rw [he] at h
        simp only [Outcome.error, Option.map_some', Option.some.injEq] at h
        rcases resolve_error_kind _ _ _ hr with h2 | h2 <;> rw [h2] at h <;>
          simp [EvalError.kind] at h
      · rw [he] at h; simp [Outcome.error] at h
  · intro h
    rw [h]; rfl
  · intro s v t hs hv
    exact execToken_assign_lhs st s v t hs hv
  · intro h
    rcases hcases with ⟨_, he⟩ | ⟨s, v, t, hs, hc⟩
    · rw [he] at h; simp [Outcome.error] at h
    · rcases hc with ⟨hv, he⟩ | ⟨e, _, hr, he⟩ | ⟨n, _, _, he⟩
      · rw [he, hdrop s v t hs]; rfl
      · rw [he] at h
        simp only [Outcome.error, Option.some.injEq] at h
        rcases resolve_error_kind _ _ _ hr with h2 | h2 <;> rw [h2] at h <;> simp at h
      · rw [he] at h; simp [Outcome.error] at h

/-- Claim C11 at the stack `[7, 5, Z]` with `Z` unbound and `B = 1` bound: the entry under
the top is `5`, so `=` throws `LHS must be A-Z.` although `Z` could not be resolved; `7`
stays and the table is as before. -/
theorem invalid_assignment_target_iff_witness :
    resolve [(.text "B", 1)] (.text "Z") = .error (.undefinedVariable (.text "Z")) ∧
    execToken ⟨[.text "7", .text "5", .text "Z"], [(.text "B", 1)], []⟩ "=" =
      .thrown .lhsMustBeAZ ⟨[.text "7"], [(.text "B", 1)], []⟩ ∧
    (execToken ⟨[.text "7", .text "5", .text "Z"], [(.text "B", 1)], []⟩ "=").error =
      some .lhsMustBeAZ :=
  ⟨by with_unfolding_all rfl,
   (invalid_assignment_target_iff ⟨[.text "7", .text "5", .text "Z"], [(.text "B", 1)], []⟩).2.2.1
      [.text "7"] (.text "5") (.text "Z") rfl (by with_unfolding_all decide),
   (invalid_assignment_target_iff ⟨[.text "7", .text "5", .text "Z"], [(.text "B", 1)], []⟩).1.mpr
      ⟨[.text "7"], .text "5", .text "Z", rfl, by with_unfolding_all decide⟩⟩

/-- Claim C12: on a stack with fewer than two entries each of `+ - * / =` and `SWAP`
throws an error of kind InsufficientOperands, and on the empty stack each of `PRINT`, `DUP`
and `DROP` throws `Stack is empty.`; in all these cases the state at the throw is the state
before the token. -/
theorem depth_errors_leave_state (st : Interp) :
    (st.stack.length < 2 →
      execToken st "+" = .thrown (.needsTwoOperands "+") st ∧
      execToken st "-" = .thrown (.needsTwoOperands "-") st ∧
      execToken st "*" = .thrown (.needsTwoOperands "*") st ∧
      execToken st "/" = .thrown (.needsTwoOperands "/") st ∧
      execToken st "=" = .thrown .assignmentNeeds st ∧
      execToken st "SWAP" = .thrown .needTwoToSwap st) ∧
    (st.stack = [] →
      execToken st "PRINT" = .thrown .stackEmpty st ∧
      execToken st "DUP" = .thrown .stackEmpty st ∧
      execToken st "DROP" = .thrown .stackEmpty st) ∧
    (∀ tok, (EvalError.needsTwoOperands tok).kind = .InsufficientOperands) ∧
    EvalError.assignmentNeeds.kind = .InsufficientOperands ∧
    EvalError.needTwoToSwap.kind = .InsufficientOperands ∧
    EvalError.stackEmpty.kind = .EmptyStack := by
  refine ⟨fun h => ⟨?_, ?_, ?_, ?_, ?_, ?_⟩, fun h => execToken_empty_stack st h,
    fun _ => rfl, rfl, rfl, rfl⟩
  · exact execToken_arith_short st "+" (by simp) h
  · exact execToken_arith_short st "-" (by simp) h
  · exact execToken_arith_short st "*" (by simp) h
  · exact execToken_arith_short st "/" (by simp) h
  · exact execToken_assign_short st h
  · exact execToken_swap_short st h

/-- Claim C12 on the one-entry stack `[A]` and on the empty stack. -/
theorem depth_errors_leave_state_witness :
    execToken ⟨[.text "A"], [(.text "B", 1)], []⟩ "=" =
      .thrown .assignmentNeeds ⟨[.text "A"], [(.text "B", 1)], []⟩ ∧
    execToken ⟨[.text "A"], [(.text "B", 1)], []⟩ "/" =
      .thrown (.needsTwoOperands "/") ⟨[.text "A"], [(.text "B", 1)], []⟩ ∧
    execToken ⟨[.text "A"], [(.text "B", 1)], []⟩ "SWAP" =
      .thrown .needTwoToSwap ⟨[.text "A"], [(.text "B", 1)], []⟩ ∧
    execToken ⟨[], [(.text "B", 1)], []⟩ "DROP" =
      .thrown .stackEmpty ⟨[], [(.text "B", 1)], []⟩ :=
  ⟨((depth_errors_leave_state ⟨[.text "A"], [(.text "B", 1)], []⟩).1 (by decide)).2.2.2.2.1,
   ((depth_errors_leave_state ⟨[.text "A"], [(.text "B", 1)], []⟩).1 (by decide)).2.2.2.1,
   ((depth_errors_leave_state ⟨[.text "A"], [(.text "B", 1)], []⟩).1 (by decide)).2.2.2.2.2,
   ((depth_errors_leave_state ⟨[], [(.text "B", 1)], []⟩).2.1 rfl).2.2⟩

/-- Claim C13: on a stack `s ++ [x]`, `DUP` succeeds and leaves `s ++ [x, x]`, the copy
being the stored entry itself (nothing is resolved), and `DROP` succeeds and leaves `s`;
neither changes anything else, so `DROP` after `DUP` gives back the state before. -/
theorem dup_and_drop (st : Interp) (s : List StackValue) (x : StackValue)
    (hs : st.stack = s ++ [x]) :
    execToken st "DUP" = .done { st with stack := s ++ [x, x] } ∧
    execToken st "DROP" = .done { st with stack := s } ∧
    evalTokens st ["DUP", "DROP"] = .done st := by
  have hdup := execToken_dup st s x hs
  refine ⟨hdup, execToken_drop st s x hs, ?_⟩
  simp only [evalTokens, hdup]
  rw [execToken_drop { st with stack := s ++ [x, x] } (s ++ [x]) x (by simp)]
  simp [← hs]

/-- Claim C13 on the examples: `DUP` on `[3]` gives `[3, 3]`, `DROP` on `[1, 2]` gives
`[1]`, and `DUP` copies the unbound variable name `Q` as it is. -/
theorem dup_and_drop_witness :
    execToken ⟨[.text "3"], [], []⟩ "DUP" = .done ⟨[.text "3", .text "3"], [], []⟩ ∧
    execToken ⟨[.text "1", .text "2"], [], []⟩ "DROP" = .done ⟨[.text "1"], [], []⟩ ∧
    execToken ⟨[.text "Q"], [], []⟩ "DUP" = .done ⟨[.text "Q", .text "Q"], [], []⟩ ∧
    evalTokens ⟨[.text "1", .text "2"], [], []⟩ ["DUP", "DROP"] =
      .done ⟨[.text "1", .text "2"], [], []⟩ :=
  ⟨(dup_and_drop ⟨[.text "3"], [], []⟩ [] (.text "3") rfl).1,
   (dup_and_drop ⟨[.text "1", .text "2"], [], []⟩ [.text "1"] (.text "2") rfl).2.1,
   (dup_and_drop ⟨[.text "Q"], [], []⟩ [] (.text "Q") rfl).1,
   (dup_and_drop ⟨[.text "1", .text "2"], [], []⟩ [.text "1"] (.text "2") rfl).2.2⟩

/-- Claim C14: on a stack `s ++ [x, y]`, `SWAP` succeeds and leaves `s ++ [y, x]`: the part
`s`, the length, the two entries themselves and everything else in the state are as before;
`SWAP` twice gives back the state before. -/
theorem swap_exchanges_top_two (st : Interp) (s : List StackValue) (x y : StackValue)
    (hs : st.stack = s ++ [x, y]) :
    execToken st "SWAP" = .done { st with stack := s ++ [y, x] } ∧
    (s ++ [y, x]).length = st.stack.length ∧
    evalTokens st ["SWAP", "SWAP"] = .done st := by
  have hswap := execToken_swap st s x y hs
  refine ⟨hswap, by simp [hs], ?_⟩
  simp only [evalTokens, hswap]
  rw [execToken_swap { st with stack := s ++ [y, x] } s y x rfl]
  simp [← hs]

/-- Claim C14 on the example: `SWAP` on `[1, 2]` gives `[2, 1]`; on `[7, A, 9]` it gives
`[7, 9, A]` with `A` unbound and not resolved. -/
theorem swap_exchanges_top_two_witness :
    execToken ⟨[.text "1", .text "2"], [], []⟩ "SWAP" =
      .done ⟨[.text "2", .text "1"], [], []⟩ ∧
    execToken ⟨[.text "7", .text "A", .num (.finite 9)], [], []⟩ "SWAP" =
      .done ⟨[.text "7", .num (.finite 9), .text "A"], [], []⟩ ∧
    evalTokens ⟨[.text "1", .text "2"], [], []⟩ ["SWAP", "SWAP"] =
      .done ⟨[.text "1", .text "2"], [], []⟩ :=
  ⟨(swap_exchanges_top_two ⟨[.text "1", .text "2"], [], []⟩ [] (.text "1") (.text "2") rfl).1,
   (swap_exchanges_top_two ⟨[.text "7", .text "A", .num (.finite 9)], [], []⟩ [.text "7"]
      (.text "A") (.num (.finite 9)) rfl).1,
   (swap_exchanges_top_two ⟨[.text "1", .text "2"], [], []⟩ [] (.text "1") (.text "2")
      rfl).2.2⟩

/-- Claim C15: on a stack `s ++ [x]`, `PRINT` succeeds, writes exactly one output, the
entry `x` as it is stored (it is not resolved, so an unbound variable on top is printed as
its letter), and leaves the stack and the symbol table as they were. -/
theorem print_writes_top_entry (st : Interp) (s : List StackValue) (x : StackValue)
    (hs : st.stack = s ++ [x]) :
    execToken st "PRINT" = .done { st with console := st.console ++ [.value x] } ∧
    (execToken st "PRINT").state.stack = st.stack ∧
    (execToken st "PRINT").state.symbolTable = st.symbolTable ∧
    (execToken st "PRINT").error = none := by
  have hp := execToken_print st s x hs
  rw [hp]
  exact ⟨rfl, rfl, rfl, rfl⟩

/-- Claim C15 on the stack `[4, A]` with `A` unbound: `PRINT` writes the letter `A` and
throws nothing. -/
theorem print_writes_top_entry_witness :
    resolve [] (.text "A") = .error (.undefinedVariable (.text "A")) ∧
    execToken ⟨[.text "4", .text "A"], [], []⟩ "PRINT" =
      .done ⟨[.text "4", .text "A"], [], [.value (.text "A")]⟩ :=
  ⟨by with_unfolding_all rfl,
   (print_writes_top_entry ⟨[.text "4", .text "A"], [], []⟩ [.text "4"] (.text "A") rfl).1⟩

/-- Claim C17: `CLEAR` never fails; it leaves the stack empty and everything else as it
was, so on an empty stack it changes nothing and a second `CLEAR` adds nothing to the
first. -/
theorem clear_empties_stack (st : Interp) :
    execToken st "CLEAR" = .done { st with stack := [] } ∧
    (st.stack = [] → execToken st "CLEAR" = .done st) ∧
    evalTokens st ["CLEAR", "CLEAR"] = execToken st "CLEAR" := by
  refine ⟨execToken_clear st, ?_, ?_⟩
  · intro h
    rw [execToken_clear, ← h]
  · simp only [evalTokens]
    rw [execToken_clear st]
    simp only
    rw [execToken_clear]

/-- Claim C17 on the stack `[1, A]` and on the empty stack. -/
theorem clear_empties_stack_witness :
    execToken ⟨[.text "1", .text "A"], [(.text "B", 1)], []⟩ "CLEAR" =
      .done ⟨[], [(.text "B", 1)], []⟩ ∧
    execToken ⟨[], [(.text "B", 1)], []⟩ "CLEAR" = .done ⟨[], [(.text "B", 1)], []⟩ :=
  ⟨(clear_empties_stack ⟨[.text "1", .text "A"], [(.text "B", 1)], []⟩).1,
   (clear_empties_stack ⟨[], [(.text "B", 1)], []⟩).2.1 rfl⟩

/-- Claim C16: the tokens of a line contain the empty string exactly when the line is
blank (empty or white space only), and then they are the single token `""`; evaluating a
blank line throws `Unknown token:` with the state unchanged; the tokens of any other line
are its maximal runs of characters that are not white space, in order (runs that are
non-empty, free of white space, and together all the other characters of the line). -/
theorem blank_line_is_one_empty_token (line : String) :
    ("" ∈ tokens line ↔ isBlank line = true) ∧
    (isBlank line = true → tokens line = [""]) ∧
    (isBlank line = true → ∀ st, evaluate st line = .thrown (.unknownToken "") st) ∧
    (isBlank line = false → tokens line = (maximalRuns line.data).map String.mk) ∧
    (∀ r ∈ maximalRuns line.data, r ≠ [] ∧ ∀ c ∈ r, isWhiteSpace c = false) ∧
    (maximalRuns line.data).flatten = line.data.filter (fun c => !isWhiteSpace c) := by
  refine ⟨⟨?_, ?_⟩, tokens_of_blank line, ?_, tokens_of_not_blank line,
    maximalRuns_mem line.data, maximalRuns_join line.data⟩
  · intro h
    cases hb : isBlank line with
    | true => rfl
    | false =>
      rw [tokens_of_not_blank line hb] at h
      obtain ⟨r, hr, he⟩ := List.mem_map.mp h
      have hne := (maximalRuns_mem line.data r hr).1
      have : r = [] := by
        have := congrArg String.data he
        simpa using this
      exact absurd this hne
  · intro h
    rw [tokens_of_blank line h]
    simp
  · intro h st
    simp only [evaluate, tokens_of_blank line h, evalTokens]
    rw [execToken_unknown st "" (by with_unfolding_all decide) (by decide) (by decide)
      (by decide)]

/-- Claim C16 on the blank line of two spaces and a tab, and on the line ` 3  A = `. -/
theorem blank_line_is_one_empty_token_witness :
    tokens "  \t" = [""] ∧
    evaluate ⟨[.text "1"], [(.text "B", 1)], []⟩ "  \t" =
      .thrown (.unknownToken "") ⟨[.text "1"], [(.text "B", 1)], []⟩ ∧
    tokens " 3  A = " = (maximalRuns " 3  A = ".data).map String.mk ∧
    (maximalRuns " 3  A = ".data).map String.mk = ["3", "A", "="] :=
  ⟨(blank_line_is_one_empty_token "  \t").2.1 (by decide),
   (blank_line_is_one_empty_token "  \t").2.2.1 (by decide) _,
   (blank_line_is_one_empty_token " 3  A = ").2.2.2.1 (by decide),
   by decide⟩

/-- Claim C18: `SHOWVARS` never fails and changes only the console; it writes the notice
alone exactly when the symbol table is empty, and otherwise one line per entry in the order
of the table; with pairwise different keys, as in every table built from a fresh
interpreter, each bound variable has exactly one line, carrying its current value, and an
unbound one has none; `set` keeps a bound key at its place and puts a new key last, so the
order is that of the first assignments. -/
theorem showvars_lists_bindings (st : Interp) :
    execToken st "SHOWVARS" =
      .done { st with console := st.console ++ showVarsOutput st.symbolTable } ∧
    (showVarsOutput st.symbolTable = [.noVars] ↔ ∀ k, st.symbolTable.has k = false) ∧
    (.noVars ∈ showVarsOutput st.symbolTable ↔ st.symbolTable = []) ∧
    (st.symbolTable ≠ [] →
      showVarsOutput st.symbolTable = st.symbolTable.map fun kv => .binding kv.1 kv.2) ∧
    (st.symbolTable.keys.Nodup → ∀ k v,
      (st.symbolTable.map fun kv => Output.binding kv.1 kv.2).count (.binding k v) =
        if st.symbolTable.get k = some v then 1 else 0) ∧
    (st.symbolTable.keys.Nodup → ∀ k,
      st.symbolTable.keys.count k = if st.symbolTable.has k = true then 1 else 0) ∧
    (∀ k v, (st.symbolTable.set k v).keys =
      if st.symbolTable.has k = true then st.symbolTable.keys else st.symbolTable.keys ++ [k]) ∧
    (∀ lines, (evaluateAll fresh lines).symbolTable.keys.Nodup ∧
      (runLines fresh lines).symbolTable.keys.Nodup) := by
  refine ⟨execToken_showvars st, ?_, ?_, ?_, fun h k v => showVars_count _ k v h,
    fun h k => SymbolTable.count_key _ k h, fun k v => SymbolTable.keys_set _ k v,
    fun lines => ⟨evaluateAll_keys_nodup fresh lines (by simp [fresh, SymbolTable.keys]),
      runLines_keys_nodup fresh lines (by simp [fresh, SymbolTable.keys])⟩⟩
  · cases hm : st.symbolTable with
    | nil => simp [showVarsOutput, SymbolTable.has, SymbolTable.get]
    | cons kv m =>
      obtain ⟨k1, v1⟩ := kv
      constructor
      · intro h
        cases m <;> simp [showVarsOutput] at h
      · intro h
        have := h k1
        simp [SymbolTable.has, SymbolTable.get] at this
  · cases hm : st.symbolTable with
    | nil => simp [showVarsOutput]
    | cons kv m => simp [showVarsOutput]
  · intro h
    cases hm : st.symbolTable with
    | nil => exact absurd hm h
    | cons kv m => simp [showVarsOutput]

/-- Claim C18 on a fresh interpreter, and after the lines `A 1 =`, `B 2 =`, `A 3 =`: the
notice alone in the first case; in the second the lines `A = 3` and `B = 2`, in this
order, once each. -/
theorem showvars_lists_bindings_witness :
    execToken fresh "SHOWVARS" = .done ⟨[], [], [.noVars]⟩ ∧
    (evaluateAll fresh ["A 1 =", "B 2 =", "A 3 ="]).symbolTable =
      [(.text "A", 3), (.text "B", 2)] ∧
    execToken ⟨[], [(.text "A", 3), (.text "B", 2)], []⟩ "SHOWVARS" =
      .done ⟨[], [(.text "A", 3), (.text "B", 2)],
        [.binding (.text "A") 3, .binding (.text "B") 2]⟩ ∧
    ([(.text "A", 3), (.text "B", 2)].map
      fun kv : StackValue × ℚ => Output.binding kv.1 kv.2).count (.binding (.text "A") 3) =
        1 ∧
    (evaluateAll fresh ["A 1 =", "B 2 =", "A 3 ="]).symbolTable.keys.Nodup :=
  ⟨(showvars_lists_bindings fresh).1,
   by with_unfolding_all decide,
   (showvars_lists_bindings ⟨[], [(.text "A", 3), (.text "B", 2)], []⟩).1,
   (showvars_lists_bindings ⟨[], [(.text "A", 3), (.text "B", 2)], []⟩).2.2.2.2.1
      (by decide) (.text "A") 3,
   ((showvars_lists_bindings fresh).2.2.2.2.2.2.2 ["A 1 =", "B 2 =", "A 3 ="]).1⟩

/-- Claim C19 fails on the token `0x10`: `isNumeric` accepts it because the coercion
`Number("0x10")` is the finite number `16`, but `resolve` returns `parseFloat("0x10")`,
which reads only the leading `0`; so `0x10 1 +` leaves `[1]`, not `[17]`.  The same happens
with the binary and octal forms. -/
theorem hex_token_resolves_to_zero :
    isNumeric (.text "0x10") = true ∧
    toNumber "0x10" = .finite 16 ∧
    parseFloat "0x10" = .finite 0 ∧
    resolve [] (.text "0x10") = .ok 0 ∧
    evaluate fresh "0x10 1 +" = .done { fresh with stack := [.num (.finite 1)] } ∧
    isNumeric (.text "0b11") = true ∧ toNumber "0b11" = .finite 3 ∧
    resolve [] (.text "0b11") = .ok 0 ∧
    isNumeric (.text "0o17") = true ∧ toNumber "0o17" = .finite 15 ∧
    resolve [] (.text "0o17") = .ok 0 := by
  refine ⟨by with_unfolding_all decide, by with_unfolding_all decide,
    by with_unfolding_all decide, by with_unfolding_all rfl, by with_unfolding_all decide,
    by with_unfolding_all decide, by with_unfolding_all decide, by with_unfolding_all rfl,
    by with_unfolding_all decide, by with_unfolding_all decide, by with_unfolding_all rfl⟩

set_option maxRecDepth 8000 in
/-- Claim C20 as stated fails: on a fresh interpreter the line `1e308 10 *` succeeds and
leaves the overflowed product `Infinity` on the stack, an entry that neither `isNumeric` nor
`isVariable` accepts and on which `resolve` fails with `Invalid token`; the line
`1e308 10 * 1 +` therefore throws `Invalid token: Infinity` out of `evaluate`. -/
theorem overflow_reaches_invalid_token :
    evaluate fresh "1e308 10 *" = .done { fresh with stack := [.num (.infinity false)] } ∧
    wellFormedStack (evaluate fresh "1e308 10 *").state.stack = false ∧
    resolve [] (.num (.infinity false)) = .error (.invalidToken (.num (.infinity false))) ∧
    evaluate fresh "1e308 10 * 1 +" =
      .thrown (.invalidToken (.num (.infinity false))) fresh := by
  refine ⟨?_, ?_, ?_, ?_⟩
  · with_unfolding_all decide
  · with_unfolding_all decide
  · rfl
  · with_unfolding_all decide

/-- Claim C20, amended: in every reachable state (start with an empty stack, then any
sequence of `evaluate` calls and of lines given to the line handler) every stack entry is
the text of a token that `isNumeric` accepts, the text of a variable token, a finite
number, or an infinite number (an arithmetic result that overflowed), never `NaN`; `resolve`
on an entry of the stack can fail only with `Variable ... is not defined.` or, for an
infinite number, with `Invalid token`; a token or a line evaluated in such a state throws
`Invalid token` only for an infinite number, which a token finds on the stack; and while
every number on the stack is finite no token throws `Invalid token`. -/
theorem stack_entries_well_formed (st : Interp) (h : Reachable st) :
    pushableStack st.stack = true ∧
    (∀ v ∈ st.stack, (∃ t, v = .text t ∧ isNumeric (.text t) = true) ∨
      (∃ t, v = .text t ∧ isVariable (.text t) = true) ∨
      (∃ q, v = .num (.finite q)) ∨ (∃ neg, v = .num (.infinity neg))) ∧
    (∀ v ∈ st.stack, ∀ e, resolve st.symbolTable v = .error e →
      e = .undefinedVariable v ∨ ∃ neg, v = .num (.infinity neg) ∧ e = .invalidToken v) ∧
    (∀ tok t, (execToken st tok).error = some (.invalidToken t) →
      t ∈ st.stack ∧ ∃ neg, t = .num (.infinity neg)) ∧
    (∀ line t, (evaluate st line).error = some (.invalidToken t) →
      ∃ neg, t = .num (.infinity neg)) ∧
    (∀ line, pushableStack (evaluate st line).state.stack = true) ∧
    (wellFormedStack st.stack = true →
      ∀ tok t, (execToken st tok).error ≠ some (.invalidToken t)) := by
  have hw := Reachable.pushable st h
  have hall := (pushableStack_iff st.stack).mp hw
  refine ⟨hw, ?_, ?_, ?_, ?_, ?_, ?_⟩
  · intro v hv
    have := hall v hv
    cases v with
    | num x =>
      cases x with
      | nan => simp [pushable, JSNumber.isNaN] at this
      | infinity neg => exact Or.inr (Or.inr (Or.inr ⟨neg, rfl⟩))
      | finite q => exact Or.inr (Or.inr (Or.inl ⟨q, rfl⟩))
    | text t =>
      simp only [pushable, Bool.or_eq_true] at this
      rcases this with h1 | h1
      · exact Or.inl ⟨t, rfl, h1⟩
      · exact Or.inr (Or.inl ⟨t, rfl, h1⟩)
  · intro v hv e he
    exact resolve_error_of_pushable _ v e (hall v hv) he
  · intro tok t he
    exact execToken_invalidToken st tok t hw he
  · intro line t he
    exact evalTokens_invalidToken st (tokens line) t hw he
  · intro line
    exact evalTokens_pushable st (tokens line) hw
  · intro hwf tok t he
    obtain ⟨hmem, neg, hneg⟩ := execToken_invalidToken st tok t hw he
    have := (wellFormedStack_iff st.stack).mp hwf t hmem
    rw [hneg] at this
    simp [isNumeric, isVariable, JSNumber.isNaN, JSNumber.isFinite] at this

set_option maxRecDepth 8000 in
/-- Claim C20, amended, in the state after the line `2 1e308 10 *` on a fresh interpreter:
the stack is `[2, Infinity]`, every entry is pushable, and the token `+` throws
`Invalid token` for an entry that is on the stack and is an infinite number. -/
theorem stack_entries_well_formed_witness :
    (evaluate fresh "2 1e308 10 *").state.stack = [.text "2", .num (.infinity false)] ∧
    pushableStack (evaluate fresh "2 1e308 10 *").state.stack = true ∧
    (execToken (evaluate fresh "2 1e308 10 *").state "+").error =
      some (.invalidToken (.num (.infinity false))) ∧
    (.num (.infinity false) ∈ (evaluate fresh "2 1e308 10 *").state.stack ∧
      ∃ neg, StackValue.num (.infinity false) = .num (.infinity neg)) :=
  ⟨by with_unfolding_all decide,
   (stack_entries_well_formed (evaluate fresh "2 1e308 10 *").state
      (Reachable.evaluate fresh "2 1e308 10 *" (Reachable.start fresh rfl))).1,
   by with_unfolding_all decide,
   (stack_entries_well_formed (evaluate fresh "2 1e308 10 *").state
      (Reachable.evaluate fresh "2 1e308 10 *" (Reachable.start fresh rfl))).2.2.2.1 "+"
      (.num (.infinity false)) (by with_unfolding_all decide)⟩

end PostfixInterpreter
